import Mathlib

/-!
Verification of the jax-ov options-volume monitor.

This file gives a shallow embedding of the core algorithms of the repository
and proves the frozen claims about them.

Modelling conventions, used throughout:
* Go `float64` premium / price / ratio values are modelled as `ℚ`.  Every
  claim below concerns the algebraic structure of the computations
  (which field is assigned which expression, which branch is taken), not
  IEEE rounding, so the rational model is the faithful level of abstraction.
* Go `int64` values (volumes, epoch-millisecond timestamps, byte offsets)
  are modelled as `Int` (offsets as `Nat`); no claim depends on 64-bit
  wrap-around.
* Go `string`s are modelled as `List Char` (the sources only ever index
  them byte-wise over ASCII data).
* Go `time.Time` values are modelled by their epoch-millisecond value:
  the sources construct them with `time.Unix(0, ms*1e6)` (injective in `ms`)
  and compare them with `After`/`Before`/`Equal`, which correspond to
  `<`/`>`/`=` on the millisecond value.  `RoundDownToPeriod` is modelled in
  UTC; the choice of (fixed) timezone offset is irrelevant to every claim.
* `encoding/json.Unmarshal` of one log line is treated as a parameter
  `um : List Char → Option Aggregate` of the log-reading functions: the
  reader's behaviour is uniform in the record decoder.
-/

namespace JaxOv

open scoped List

/-- Option contract side, the parsed `"call"` / `"put"` result strings of
`analysis.ParseOptionType`. -/
inductive OptionType where
  | call : OptionType
  | put : OptionType
deriving DecidableEq, Repr

/-- `analysis.Aggregate` (internal/auth/jwt.go): one per-second option tick
as decoded from a log line.  Field names follow the Go struct. -/
structure Aggregate where
  symbol : List Char
  volume : Int
  accumulatedVolume : Int
  officialOpenPrice : ℚ
  vwap : ℚ
  open_ : ℚ
  high : ℚ
  low : ℚ
  close : ℚ
  aggregateVWAP : ℚ
  averageSize : Int
  startTimestamp : Int
  endTimestamp : Int
deriving DecidableEq, Repr

/-- `analysis.TimePeriodSummary` (internal/auth/jwt.go): aggregated premium
data for one time bucket.  `periodStart`/`periodEnd` are the epoch-millisecond
values of the Go `time.Time` fields. -/
structure TimePeriodSummary where
  periodStart : Int
  periodEnd : Int
  callPremium : ℚ
  putPremium : ℚ
  totalPremium : ℚ
  callPutRatio : ℚ
  callVolume : Int
  putVolume : Int
deriving DecidableEq, Repr

/-- The all-zero summary fields used when `AggregatePremiums` creates a fresh
map entry (`&TimePeriodSummary{PeriodStart: ..., PeriodEnd: ...}`). -/
def freshSummary (ps pe : Int) : TimePeriodSummary :=
  { periodStart := ps, periodEnd := pe, callPremium := 0, putPremium := 0
    totalPremium := 0, callPutRatio := 0, callVolume := 0, putVolume := 0 }

/-! ### Symbol parsing (internal/auth/jwt.go `ParseOptionType`,
cmd/premium-outliers `parseContractSymbol`) -/

/-- The Go byte test `c >= '0' && c <= '9'`. -/
def isDigitChar (c : Char) : Bool := '0' ≤ c && c ≤ '9'

/-- `strings.TrimPrefix(symbol, "O:")`. -/
def trimPrefixO (s : List Char) : List Char :=
  if s.take 2 = ['O', ':'] then s.drop 2 else s

/-- Does index `i` of `s` hold a `'C'`/`'P'` immediately followed by a digit?
This is the loop-body test of both symbol parsers. -/
def markerAt (s : List Char) (i : Nat) : Bool :=
  (s.getD i ' ' = 'C' || s.getD i ' ' = 'P') &&
    (i + 1 < s.length && isDigitChar (s.getD (i + 1) ' '))

/-- The backwards scan `for i := len(symbol)-1; i >= 0; i--` of both symbol
parsers: index of the rightmost marker position `≤ i`, if any. -/
def findMarkerDown (s : List Char) : Nat → Option Nat
  | 0 => if markerAt s 0 then some 0 else none
  | i + 1 => if markerAt s (i + 1) then some (i + 1) else findMarkerDown s i

/-- Rightmost `'C'`/`'P'`-followed-by-digit position in `s`, if any. -/
def findMarker (s : List Char) : Option Nat :=
  match s.length with
  | 0 => none
  | n + 1 => findMarkerDown s n

/-- `analysis.ParseOptionType` (internal/auth/jwt.go:311).  Returns `none`
where the Go function returns a non-nil error. -/
def ParseOptionType (symbol : List Char) : Option OptionType :=
  let s := trimPrefixO symbol
  if s.length < 7 then none
  else
    match findMarker s with
    | none => none
    | some i => if s.getD i ' ' = 'C' then some .call else some .put

/-! ### Premium and bucket computation (internal/auth/jwt.go) -/

/-- `analysis.CalculatePremium`: `float64(volume) * vw * 100`. -/
def CalculatePremium (volume : Int) (vw : ℚ) : ℚ :=
  (volume : ℚ) * vw * 100

/-- `analysis.RoundDownToPeriod` (internal/auth/jwt.go:349), in UTC:
round the timestamp down to the nearest `minutes`-minute boundary of its day
(seconds and milliseconds within the minute are likewise dropped, as the Go
code rebuilds the time from whole minutes). -/
def RoundDownToPeriod (timestamp minutes : Int) : Int :=
  let msOfDay := timestamp.emod 86400000
  let totalMinutes := msOfDay.ediv 60000
  let roundedMinutes := (totalMinutes.ediv minutes) * minutes
  (timestamp - msOfDay) + roundedMinutes * 60000

/-- Bucket end: `periodStart + int64(periodMinutes*60*1000)`. -/
def periodEndOf (periodStart periodMinutes : Int) : Int :=
  periodStart + periodMinutes * 60 * 1000

/-! ### Full contract-symbol parsing (cmd/premium-outliers `parseContractSymbol`) -/

/-- `ContractDetails` of cmd/premium-outliers: the decomposed option symbol.
The Go `Type` field holds `"CALL"`/`"PUT"`; we reuse `OptionType`. -/
structure ContractDetails where
  underlying : List Char
  expiration : List Char
  strike : List Char
  type : OptionType
  fullSymbol : List Char
deriving DecidableEq, Repr

/-- Expiration formatting of `parseContractSymbol`:
`"20" + exp[0:2] + "-" + exp[2:4] + "-" + exp[4:6]`. -/
def formatExpiration (e : List Char) : List Char :=
  ['2', '0'] ++ e.take 2 ++ ['-'] ++ (e.drop 2).take 2 ++ ['-'] ++ (e.drop 4).take 2

/-- Strike formatting of `parseContractSymbol`: trim leading zeros (empty →
`"0"`), left-pad to at least three digits, insert a decimal point three
characters from the right, then right-pad the decimal part to three places. -/
def formatStrike (raw : List Char) : List Char :=
  let s0 := raw.dropWhile (fun c => c = '0')
  let s1 := if s0 = [] then ['0'] else s0
  let s2 := List.replicate (3 - s1.length) '0' ++ s1
  let s3 := s2.take (s2.length - 3) ++ ['.'] ++ s2.drop (s2.length - 3)
  let parts := s3.splitOn '.'
  if parts.length = 2 then
    parts.getD 0 [] ++ ['.'] ++ (parts.getD 1 [] ++ List.replicate (3 - (parts.getD 1 []).length) '0')
  else s3

/-- `parseContractSymbol` (cmd/premium-outliers): decompose a symbol into
underlying / expiration / strike / type.  Returns `none` where the Go
function returns a non-nil error. -/
def parseContractSymbol (symbol : List Char) : Option ContractDetails :=
  let s := trimPrefixO symbol
  if s.length < 7 then none
  else
    match findMarker s with
    | none => none
    | some i =>
      if i < 6 then none
      else
        let underlying := s.take (i - 6)
        let expirationStr := (s.drop (i - 6)).take 6
        let strikeStr := s.drop (i + 1)
        if expirationStr.length ≠ 6 then none
        else
          some { underlying := underlying
                 expiration := formatExpiration expirationStr
                 strike := formatStrike strikeStr
                 type := if s.getD i ' ' = 'C' then .call else .put
                 fullSymbol := ['O', ':'] ++ s }

/-! ### Period aggregation (internal/auth/jwt.go `AggregatePremiums`,
internal/server/analyzer.go `UpdatePeriodSummaryIncremental`)

The Go map `map[int64]*TimePeriodSummary` is modelled as an association
list with distinct keys (`alistFind` / `alistUpsert`); insertion order is
immaterial because `AggregatePremiums` sorts the collected values before
returning them and all keys are distinct. -/

/-- Lookup in the period map. -/
def alistFind (k : Int) : List (Int × TimePeriodSummary) → Option TimePeriodSummary
  | [] => none
  | (k', v) :: rest => if k = k' then some v else alistFind k rest

/-- Map store: replace the binding for `k` in place, or append a new one. -/
def alistUpsert (k : Int) (v : TimePeriodSummary) :
    List (Int × TimePeriodSummary) → List (Int × TimePeriodSummary)
  | [] => [(k, v)]
  | (k', v') :: rest =>
    if k = k' then (k, v) :: rest else (k', v') :: alistUpsert k v rest

/-- The accumulation step shared verbatim by `AggregatePremiums` and
`UpdatePeriodSummaryIncremental`: add the tick's premium and volume to the
matching side, then recompute `TotalPremium` and `CallPutRatio`. -/
def applyTick (s : TimePeriodSummary) (ot : OptionType) (premium : ℚ)
    (volume : Int) : TimePeriodSummary :=
  let s1 :=
    match ot with
    | .call => { s with callPremium := s.callPremium + premium
                        callVolume := s.callVolume + volume }
    | .put => { s with putPremium := s.putPremium + premium
                       putVolume := s.putVolume + volume }
  let s2 := { s1 with totalPremium := s1.callPremium + s1.putPremium }
  { s2 with
    callPutRatio :=
      if 0 < s2.putPremium then s2.callPremium / s2.putPremium
      else if 0 < s2.callPremium then -1
      else 0 }

/-- One iteration of the `AggregatePremiums` tick loop on the period map. -/
def aggStep (periodMinutes : Int) (m : List (Int × TimePeriodSummary))
    (agg : Aggregate) : List (Int × TimePeriodSummary) :=
  match ParseOptionType agg.symbol with
  | none => m
  | some ot =>
    let premium := CalculatePremium agg.volume agg.vwap
    let ps := RoundDownToPeriod agg.startTimestamp periodMinutes
    let pe := periodEndOf ps periodMinutes
    let s0 := (alistFind ps m).getD (freshSummary ps pe)
    alistUpsert ps (applyTick s0 ot premium agg.volume) m

/-- One inner pass of the final nested-loop sort of `AggregatePremiums`
(`if result[i].PeriodStart.After(result[j].PeriodStart) { swap }`), expressed
recursively: carry the running `result[i]` through the tail, swapping whenever
it is later than the element under scan.  Returns the final `result[i]`
(the minimum) and the rearranged tail. -/
def sortInner (x : TimePeriodSummary) :
    List TimePeriodSummary → TimePeriodSummary × List TimePeriodSummary
  | [] => (x, [])
  | y :: ys =>
    if y.periodStart < x.periodStart then
      let r := sortInner y ys
      (r.1, x :: r.2)
    else
      let r := sortInner x ys
      (r.1, y :: r.2)

/-- Outer loop of the exchange sort, with a structural fuel argument
(`sortInner` preserves length, so fuel `l.length` always suffices and the
fuel-exhausted branch is unreachable). -/
def sortFuel : Nat → List TimePeriodSummary → List TimePeriodSummary
  | 0, _ => []
  | _, [] => []
  | fuel + 1, x :: xs =>
    let r := sortInner x xs
    r.1 :: sortFuel fuel r.2

/-- The full nested-loop exchange sort of `AggregatePremiums`, ascending by
`PeriodStart`. -/
def sortByPeriodStart (l : List TimePeriodSummary) : List TimePeriodSummary :=
  sortFuel l.length l

/-- `analysis.AggregatePremiums` (internal/auth/jwt.go:366).  The Go function
also returns an `error` that is always nil; it is omitted here. -/
def AggregatePremiums (aggregates : List Aggregate) (periodMinutes : Int) :
    List TimePeriodSummary :=
  sortByPeriodStart ((aggregates.foldl (aggStep periodMinutes) []).map Prod.snd)

/-- Loop body of `UpdatePeriodSummaryIncremental`: skip an unparsable symbol,
skip a tick whose period differs from the summary's
(`periodStart != summary.PeriodStart.UnixMilli()`), else accumulate. -/
def updateStep (periodMinutes : Int) (s : TimePeriodSummary)
    (agg : Aggregate) : TimePeriodSummary :=
  match ParseOptionType agg.symbol with
  | none => s
  | some ot =>
    let premium := CalculatePremium agg.volume agg.vwap
    let ps := RoundDownToPeriod agg.startTimestamp periodMinutes
    if ps ≠ s.periodStart then s
    else applyTick s ot premium agg.volume

/-- `server.UpdatePeriodSummaryIncremental` (internal/server/analyzer.go:460):
fold the new aggregates into one summary, skipping unparsable symbols and
ticks belonging to a different period.  The second component models the Go
`error` return value, which is always nil. -/
def UpdatePeriodSummaryIncremental (summary : TimePeriodSummary)
    (aggregates : List Aggregate) (periodMinutes : Int) :
    TimePeriodSummary × Option (List Char) :=
  (aggregates.foldl (updateStep periodMinutes) summary, none)

/-! ### Incremental log reading (internal/server/analyzer.go
`ReadLogFileIncremental`)

The file system is modelled as `Option (List Char)`: `none` when the file
does not exist (so `os.Open` fails), `some content` otherwise.  The JSON
decoder for one line is the parameter `um`. -/

/-- The `reader.ReadBytes('\n')` loop of `ReadLogFileIncremental`, acting on
the bytes after the seek position, with a structural fuel argument (each
step consumes at least one byte, so fuel `rest.length` always suffices; a
fuel-exhausted `rest` is empty, handled like the clean-EOF leaf).  Returns
the accumulated aggregates, the running `lastCompletePosition`, and whether
the loop ended at a clean EOF (`true`) or stopped before a trailing partial
line (`false`). -/
def readLoopF (um : List Char → Option Aggregate) :
    Nat → List Char → List Aggregate → Nat → List Aggregate × Nat × Bool
  | 0, rest, aggs, pos => (aggs, pos, rest.isEmpty)
  | fuel + 1, rest, aggs, pos =>
    let line := rest.takeWhile (fun c => c ≠ '\n')
    if line.length = rest.length then
      -- no newline before EOF: empty ⇒ clean break, non-empty ⇒ partial line
      (aggs, pos, rest.isEmpty)
    else
      let tail := rest.drop (line.length + 1)
      if line.isEmpty then readLoopF um fuel tail aggs (pos + 1)
      else
        match um line with
        | none => readLoopF um fuel tail aggs (pos + line.length + 1)
        | some a => readLoopF um fuel tail (aggs ++ [a]) (pos + line.length + 1)

/-- The read loop at its natural fuel. -/
def readLoop (um : List Char → Option Aggregate) (rest : List Char)
    (aggs : List Aggregate) (pos : Nat) : List Aggregate × Nat × Bool :=
  readLoopF um rest.length rest aggs pos

/-- `server.ReadLogFileIncremental` (internal/server/analyzer.go:392).
Result: `(aggregates, newOffset, error)`.  On a clean EOF the Go code
returns the underlying file position (`file.Seek(0, 1)`), which is the file
size when `lastPosition ≤ size` and `lastPosition` itself when the seek
started beyond EOF — i.e. `max size lastPosition`. -/
def ReadLogFileIncremental (um : List Char → Option Aggregate)
    (file : Option (List Char)) (lastPosition : Nat) :
    List Aggregate × Nat × Option (List Char) :=
  match file with
  | none => ([], lastPosition, some "failed to open log file".data)
  | some content =>
    let r := readLoop um (content.drop lastPosition) [] lastPosition
    if r.2.2 then (r.1, max content.length lastPosition, none)
    else (r.1, r.2.1, none)

/-- Characterization helper: split `s` into its complete (newline-terminated)
lines, newlines removed, and the trailing partial line after the last
newline. -/
def completeSplit : List Char → List (List Char) × List Char
  | [] => ([], [])
  | c :: rest =>
    let r := completeSplit rest
    if c = '\n' then ([] :: r.1, r.2)
    else
      match r.1 with
      | l :: ls => ((c :: l) :: ls, r.2)
      | [] => ([], c :: r.2)

/-- The complete newline-terminated lines of `s` (newlines removed, bytes
after the last newline dropped). -/
def completeLines (s : List Char) : List (List Char) :=
  (completeSplit s).1

/-- Number of bytes of `s` up to and including its last newline (`0` if `s`
has no newline): everything except the trailing partial line. -/
def completeLen (s : List Char) : Nat :=
  s.length - (completeSplit s).2.length

/-- The records contained in the complete newline-terminated lines of `s`:
empty lines are skipped, and lines the decoder rejects are skipped. -/
def recordsFrom (um : List Char → Option Aggregate) (s : List Char) :
    List Aggregate :=
  (completeLines s).filterMap (fun l => if l.isEmpty then none else um l)

/-- Offset `off` lies on a record boundary of `content`: it is within the
file and everything before it ends with a newline (or is empty). -/
def isRecordBoundary (content : List Char) (off : Nat) : Prop :=
  off ≤ content.length ∧ (off = 0 ∨ content.getD (off - 1) ' ' = '\n')

instance (content : List Char) (off : Nat) :
    Decidable (isRecordBoundary content off) := by
  unfold isRecordBoundary; infer_instance

/-! ### Whole-file analysis entry point (internal/server/analyzer.go
`AnalyzeTickerAndDate`, part of the server package with `ReadLogFile`) -/

/-- `server.ReadLogFile`: scan every line of the file (the `bufio.Scanner`
also yields a final line that lacks a trailing newline), skipping lines the
JSON decoder rejects. -/
def ReadLogFile (um : List Char → Option Aggregate) (content : List Char) :
    List Aggregate :=
  ((content.splitOn '\n').filter (fun l => ¬l.isEmpty)).filterMap um

/-- `server.AnalyzeTickerAndDate` (internal/server/analyzer.go:630), with the
on-disk file for the requested ticker and date abstracted to
`file : Option (List Char)`: a missing file yields empty results and no
error; otherwise the file is read in full and aggregated. -/
def AnalyzeTickerAndDate (um : List Char → Option Aggregate)
    (file : Option (List Char)) (periodMinutes : Int) :
    Except (List Char) (List TimePeriodSummary) :=
  match file with
  | none => .ok []
  | some content =>
    let aggregates := ReadLogFile um content
    if aggregates.isEmpty then .ok []
    else .ok (AggregatePremiums aggregates periodMinutes)

/-! ### Notification thresholds and deduplication
(`notifications.EvaluateThresholds`, and the per-ticker evaluation loop of
cmd/premium-outliers-dir `main`) -/

/-- `notifications.NotificationConfig`: per-(user, ticker) thresholds.
`int` fields stay `Int`, `float64` fields become `ℚ`. -/
structure NotificationConfig where
  ticker : List Char
  ratioPremiumThreshold : Int
  callRatioThreshold : ℚ
  putRatioThreshold : ℚ
  callPremiumThreshold : Int
  putPremiumThreshold : Int
deriving DecidableEq, Repr

/-- `notifications.EvaluateThresholds`: OR of the four independent rules,
in source order.  The nested `if` structure of the Go code (gate first, then
ratio) is flattened into conjunctions, which is logically identical. -/
def EvaluateThresholds (summary : TimePeriodSummary)
    (config : NotificationConfig) : Bool :=
  if 0 < config.callPremiumThreshold ∧
      (config.callPremiumThreshold : ℚ) ≤ summary.callPremium then true
  else if 0 < config.putPremiumThreshold ∧
      (config.putPremiumThreshold : ℚ) ≤ summary.putPremium then true
  else if 0 < config.callRatioThreshold ∧ 0 < config.ratioPremiumThreshold ∧
      (config.ratioPremiumThreshold : ℚ) ≤ summary.totalPremium ∧
      config.callRatioThreshold ≤ summary.callPutRatio then true
  else if 0 < config.putRatioThreshold ∧ 0 < config.ratioPremiumThreshold ∧
      (config.ratioPremiumThreshold : ℚ) ≤ summary.totalPremium ∧
      config.putRatioThreshold ≤
        (if 0 < summary.callPremium then summary.putPremium / summary.callPremium
         else if 0 < summary.putPremium then (-1 : ℚ) else 0) then true
  else false

/-- The dedup-relevant slice of `TickerState` for one fixed user:
the user's `NotifiedPeriods` key set (keys that were marked `true`) and the
shared `LastProcessedPeriodEnd` (`none` models the zero `time.Time`). -/
structure NotifState where
  notifiedKeys : List Int
  lastProcessedPeriodEnd : Option Int
deriving DecidableEq, Repr

/-- One evaluation of one summary for the fixed user: the summary as read in
this pass, the wall clock `time.Now()` of the pass (epoch ms), and whether
`sendPushNotification` would succeed (which the state logic ignores). -/
structure PassInput where
  summary : TimePeriodSummary
  nowMs : Int
  deliveryOk : Bool
deriving DecidableEq, Repr

/-- One iteration of the per-period / per-user notification loop of
cmd/premium-outliers-dir `main` (src/unnamed/part_005, the body from the
`isComplete` computation through the `LastProcessedPeriodEnd` update),
projected onto a single user.  Returns whether `sendPushNotification` was
invoked, and the updated dedup state.  Mirrors the source exactly:
historical periods (completed before monitoring started) are skipped,
completed periods at or below `LastProcessedPeriodEnd` are skipped, the
dedup key is the period end for a completed period and
`periodEnd + (now.Unix()/30)*30` for an in-progress one, and the key is
recorded whenever thresholds are met, regardless of delivery success. -/
def processSummaryPass (monitoringStart : Int) (cfg : NotificationConfig)
    (st : NotifState) (p : PassInput) : Bool × NotifState :=
  let periodEnd := p.summary.periodEnd
  let isComplete : Bool := periodEnd ≤ p.nowMs
  let lpSkip : Bool :=
    match st.lastProcessedPeriodEnd with
    | some lp => periodEnd ≤ lp
    | none => false
  if isComplete ∧ periodEnd < monitoringStart then (false, st)
  else if isComplete ∧ lpSkip then (false, st)
  else
    let key : Int :=
      if isComplete then periodEnd
      else periodEnd + ((p.nowMs.ediv 1000).tdiv 30) * 30
    let met := EvaluateThresholds p.summary cfg
    let dispatched : Bool := key ∉ st.notifiedKeys ∧ met = true
    let st1 := if dispatched then
        { st with notifiedKeys := key :: st.notifiedKeys } else st
    if isComplete then
      let newLp : Int :=
        match st.lastProcessedPeriodEnd with
        | none => periodEnd
        | some lp => if lp < periodEnd then periodEnd else lp
      (dispatched, { st1 with lastProcessedPeriodEnd := some newLp })
    else (dispatched, st1)

/-- Run a sequence of evaluation passes, counting dispatched notifications. -/
def runPasses (monitoringStart : Int) (cfg : NotificationConfig)
    (st : NotifState) : List PassInput → Nat × NotifState
  | [] => (0, st)
  | p :: ps =>
    let r := processSummaryPass monitoringStart cfg st p
    let rest := runPasses monitoringStart cfg r.2 ps
    ((if r.1 then 1 else 0) + rest.1, rest.2)

/-- The `PeriodSummary` invariant of the spec: total = call + put, and the
call/put ratio follows the sentinel rule (put > 0 → call/put; put = 0 and
call > 0 → −1; both zero → 0). -/
def summaryInv (s : TimePeriodSummary) : Prop :=
  s.totalPremium = s.callPremium + s.putPremium ∧
  (0 < s.putPremium → s.callPutRatio = s.callPremium / s.putPremium) ∧
  (s.putPremium = 0 → 0 < s.callPremium → s.callPutRatio = -1) ∧
  (s.putPremium = 0 → s.callPremium = 0 → s.callPutRatio = 0)

/-- Does aggregate `a` contribute to bucket `k` (parsable symbol and
matching bucket start)?  Characterization helper for `AggregatePremiums`. -/
def hits (n k : Int) (a : Aggregate) : Bool :=
  (ParseOptionType a.symbol).isSome &&
    (RoundDownToPeriod a.startTimestamp n = k)

/-- The raw additive contribution of one aggregate:
(call premium, put premium, call volume, put volume). -/
def tickDelta (a : Aggregate) : ℚ × ℚ × Int × Int :=
  match ParseOptionType a.symbol with
  | some .call => (CalculatePremium a.volume a.vwap, 0, a.volume, 0)
  | some .put => (0, CalculatePremium a.volume a.vwap, 0, a.volume)
  | none => (0, 0, 0, 0)

/-- Total raw contribution of the ticks of `l` that land in bucket `k`. -/
def sumRaw (n k : Int) (l : List Aggregate) : ℚ × ℚ × Int × Int :=
  ((l.filter (hits n k)).map tickDelta).sum

/-- The raw additive fields of a summary. -/
def rawOf (s : TimePeriodSummary) : ℚ × ℚ × Int × Int :=
  (s.callPremium, s.putPremium, s.callVolume, s.putVolume)

/-- The summary determined by a bucket and its raw sums: total and ratio
recomputed exactly as the accumulation step does. -/
def mkFromRaw (ps pe : Int) (r : ℚ × ℚ × Int × Int) : TimePeriodSummary :=
  { periodStart := ps, periodEnd := pe, callPremium := r.1,
    putPremium := r.2.1, totalPremium := r.1 + r.2.1,
    callPutRatio :=
      if 0 < r.2.1 then r.1 / r.2.1 else if 0 < r.1 then -1 else 0,
    callVolume := r.2.2.1, putVolume := r.2.2.2 }

/-- Raw fields of the map entry at `k`, zero if absent. -/
def rawAt (k : Int) (m : List (Int × TimePeriodSummary)) : ℚ × ℚ × Int × Int :=
  ((alistFind k m).map rawOf).getD 0

/-- Well-formedness of the period map: keys are distinct and every entry is
the summary its key and raw fields determine. -/
def aggMapInv (n : Int) (m : List (Int × TimePeriodSummary)) : Prop :=
  (m.map Prod.fst).Nodup ∧
  ∀ e ∈ m, e.2 = mkFromRaw e.1 (periodEndOf e.1 n) (rawOf e.2)

/-! ## Helper lemmas -/

theorem applyTick_summaryInv (s : TimePeriodSummary) (ot : OptionType)
    (premium : ℚ) (volume : Int) : summaryInv (applyTick s ot premium volume) := by
  cases ot <;>
    · simp only [applyTick, summaryInv]
      refine ⟨?_, fun hp => ?_, fun hp hc => ?_, fun hp hc => ?_⟩ <;>
        first
          | trivial
          | (split_ifs <;> first | rfl | trivial | linarith)

theorem applyTick_periodStart (s : TimePeriodSummary) (ot : OptionType)
    (premium : ℚ) (volume : Int) :
    (applyTick s ot premium volume).periodStart = s.periodStart := by
  cases ot <;> simp [applyTick]

theorem applyTick_periodEnd (s : TimePeriodSummary) (ot : OptionType)
    (premium : ℚ) (volume : Int) :
    (applyTick s ot premium volume).periodEnd = s.periodEnd := by
  cases ot <;> simp [applyTick]

theorem alistUpsert_mem (k : Int) (v : TimePeriodSummary)
    (m : List (Int × TimePeriodSummary)) :
    ∀ e ∈ alistUpsert k v m, e = (k, v) ∨ e ∈ m := by
  induction m with
  | nil => intro e he; simpa [alistUpsert] using he
  | cons hd tl ih =>
    obtain ⟨k', v'⟩ := hd
    intro e he
    by_cases hk : k = k'
    · simp only [alistUpsert, if_pos hk, List.mem_cons] at he
      rcases he with he | he
      · exact .inl he
      · exact .inr (List.mem_cons_of_mem _ he)
    · simp only [alistUpsert, if_neg hk, List.mem_cons] at he
      rcases he with he | he
      · exact .inr (he ▸ List.mem_cons_self _ _)
      · rcases ih e he with h' | h'
        · exact .inl h'
        · exact .inr (List.mem_cons_of_mem _ h')

theorem aggFold_entries_inv (periodMinutes : Int) (aggs : List Aggregate) :
    ∀ (m : List (Int × TimePeriodSummary)),
      (∀ e ∈ m, summaryInv e.2) →
      ∀ e ∈ aggs.foldl (aggStep periodMinutes) m, summaryInv e.2 := by
  induction aggs with
  | nil => intro m hm e he; exact hm e he
  | cons a as ih =>
    intro m hm e he
    refine ih _ ?_ e he
    intro e' he'
    simp only [aggStep] at he'
    split at he'
    · exact hm e' he'
    · rcases alistUpsert_mem _ _ _ e' he' with h | h
      · subst h; exact applyTick_summaryInv _ _ _ _
      · exact hm e' h

theorem sortInner_perm (x : TimePeriodSummary) (l : List TimePeriodSummary) :
    (sortInner x l).1 :: (sortInner x l).2 ~ x :: l := by
  induction l generalizing x with
  | nil => simp [sortInner]
  | cons y ys ih =>
    simp only [sortInner]
    split
    · calc (sortInner y ys).1 :: x :: (sortInner y ys).2
          ~ x :: (sortInner y ys).1 :: (sortInner y ys).2 := List.Perm.swap _ _ _
        _ ~ x :: y :: ys := (ih y).cons x
    · calc (sortInner x ys).1 :: y :: (sortInner x ys).2
          ~ y :: (sortInner x ys).1 :: (sortInner x ys).2 := List.Perm.swap _ _ _
        _ ~ y :: x :: ys := (ih x).cons y
        _ ~ x :: y :: ys := List.Perm.swap _ _ _

theorem sortInner_length (x : TimePeriodSummary) (l : List TimePeriodSummary) :
    (sortInner x l).2.length = l.length := by
  induction l generalizing x with
  | nil => simp [sortInner]
  | cons y ys ih => simp only [sortInner]; split <;> simp [ih]

theorem sortFuel_perm :
    ∀ (fuel : Nat) (l : List TimePeriodSummary), l.length ≤ fuel →
      sortFuel fuel l ~ l := by
  intro fuel
  induction fuel with
  | zero =>
    intro l h
    have : l = [] := List.eq_nil_of_length_eq_zero (Nat.le_zero.mp h)
    subst this
    simp [sortFuel]
  | succ f ih =>
    intro l h
    match l with
    | [] => simp [sortFuel]
    | x :: xs =>
      have hlen : (sortInner x xs).2.length ≤ f := by
        rw [sortInner_length]
        simpa using Nat.succ_le_succ_iff.mp h
      calc sortFuel (f + 1) (x :: xs)
          = (sortInner x xs).1 :: sortFuel f (sortInner x xs).2 := rfl
        _ ~ (sortInner x xs).1 :: (sortInner x xs).2 :=
            (ih _ hlen).cons _
        _ ~ x :: xs := sortInner_perm x xs

theorem sortByPeriodStart_perm (l : List TimePeriodSummary) :
    sortByPeriodStart l ~ l :=
  sortFuel_perm l.length l le_rfl

theorem updateStep_periodStart (n : Int) (s : TimePeriodSummary) (a : Aggregate) :
    (updateStep n s a).periodStart = s.periodStart := by
  unfold updateStep
  split
  · rfl
  · dsimp only
    split
    · rfl
    · exact applyTick_periodStart _ _ _ _

theorem updateStep_periodEnd (n : Int) (s : TimePeriodSummary) (a : Aggregate) :
    (updateStep n s a).periodEnd = s.periodEnd := by
  unfold updateStep
  split
  · rfl
  · dsimp only
    split
    · rfl
    · exact applyTick_periodEnd _ _ _ _

theorem updateFold_periodStart (n : Int) (aggs : List Aggregate) :
    ∀ s : TimePeriodSummary,
      (aggs.foldl (updateStep n) s).periodStart = s.periodStart := by
  induction aggs with
  | nil => intro s; rfl
  | cons a as ih =>
    intro s
    rw [List.foldl_cons, ih (updateStep n s a), updateStep_periodStart]

theorem updateFold_periodEnd (n : Int) (aggs : List Aggregate) :
    ∀ s : TimePeriodSummary,
      (aggs.foldl (updateStep n) s).periodEnd = s.periodEnd := by
  induction aggs with
  | nil => intro s; rfl
  | cons a as ih =>
    intro s
    rw [List.foldl_cons, ih (updateStep n s a), updateStep_periodEnd]

/-- An aggregate that fails to parse or lands in another period leaves the
summary untouched. -/
theorem updateStep_skip (n : Int) (s : TimePeriodSummary) (a : Aggregate)
    (h : ¬((ParseOptionType a.symbol).isSome = true ∧
        RoundDownToPeriod a.startTimestamp n = s.periodStart)) :
    updateStep n s a = s := by
  unfold updateStep
  split
  · rfl
  · dsimp only
    split
    · rfl
    · rename_i ot hot hps
      exfalso
      exact h ⟨by rw [hot]; rfl, by simpa using hps⟩

theorem updateFold_filter (n : Int) (aggs : List Aggregate) :
    ∀ s : TimePeriodSummary,
      aggs.foldl (updateStep n) s =
        (aggs.filter (fun a => (ParseOptionType a.symbol).isSome &&
          (RoundDownToPeriod a.startTimestamp n = s.periodStart))).foldl
          (updateStep n) s := by
  induction aggs with
  | nil => intro s; rfl
  | cons a as ih =>
    intro s
    by_cases h : (ParseOptionType a.symbol).isSome = true ∧
        RoundDownToPeriod a.startTimestamp n = s.periodStart
    · have hfilter : (a :: as).filter (fun a => (ParseOptionType a.symbol).isSome &&
          (RoundDownToPeriod a.startTimestamp n = s.periodStart)) =
          a :: as.filter (fun a => (ParseOptionType a.symbol).isSome &&
            (RoundDownToPeriod a.startTimestamp n = s.periodStart)) := by
        rw [List.filter_cons_of_pos]
        simpa using h
      rw [List.foldl_cons, hfilter, List.foldl_cons]
      have hps : (updateStep n s a).periodStart = s.periodStart :=
        updateStep_periodStart n s a
      rw [ih (updateStep n s a)]
      congr 1
      apply List.filter_congr
      intro b _
      rw [hps]
    · have hfilter : (a :: as).filter (fun a => (ParseOptionType a.symbol).isSome &&
          (RoundDownToPeriod a.startTimestamp n = s.periodStart)) =
          as.filter (fun a => (ParseOptionType a.symbol).isSome &&
            (RoundDownToPeriod a.startTimestamp n = s.periodStart)) := by
        rw [List.filter_cons_of_neg]
        simpa using h
      rw [List.foldl_cons, hfilter, updateStep_skip n s a h, ih s]

/-- One update step either keeps the summary or establishes the invariant. -/
theorem updateStep_keep_or_inv (n : Int) (s : TimePeriodSummary) (a : Aggregate) :
    updateStep n s a = s ∨ summaryInv (updateStep n s a) := by
  unfold updateStep
  split
  · exact .inl rfl
  · dsimp only
    split
    · exact .inl rfl
    · exact .inr (applyTick_summaryInv _ _ _ _)

/-- The update fold either keeps the summary or establishes the invariant. -/
theorem updateFold_inv (n : Int) (aggs : List Aggregate) :
    ∀ s : TimePeriodSummary,
      aggs.foldl (updateStep n) s = s ∨
        summaryInv (aggs.foldl (updateStep n) s) := by
  have aux : ∀ (s : TimePeriodSummary) (l : List Aggregate)
      (x : TimePeriodSummary), (x = s ∨ summaryInv x) →
      (l.foldl (updateStep n) x = s ∨ summaryInv (l.foldl (updateStep n) x)) := by
    intro s l
    induction l with
    | nil => intro x hx; simpa using hx
    | cons a as ih =>
      intro x hx
      rw [List.foldl_cons]
      apply ih
      rcases updateStep_keep_or_inv n x a with h | h
      · rw [h]; exact hx
      · exact .inr h
  intro s
  exact aux s aggs s (.inl rfl)

/-! ## Claim theorems -/

/-- **C1** — For every list of ticks and every period width, every
`PeriodSummary` produced by the batch aggregator (`AggregatePremiums`) or
mutated by the incremental updater (`UpdatePeriodSummaryIncremental`)
satisfies `total == call + put`, and its ratio equals `call/put` when the
put premium is positive, the sentinel `-1` when the put premium is zero and
the call premium positive, and `0` when both are zero.  ("Mutated by" is
read literally for the incremental updater: its result either is the input
summary unchanged — when no aggregate matched — or satisfies the
invariant.) -/
theorem aggregated_summaries_invariant :
    ∀ (aggs : List Aggregate) (n : Int) (s : TimePeriodSummary),
      (AggregatePremiums aggs n).Forall summaryInv ∧
      ((UpdatePeriodSummaryIncremental s aggs n).1 = s ∨
        summaryInv (UpdatePeriodSummaryIncremental s aggs n).1) := by
  intro aggs n s
  constructor
  · rw [List.forall_iff_forall_mem]
    intro x hx
    have hperm := sortByPeriodStart_perm
      ((aggs.foldl (aggStep n) []).map Prod.snd)
    have hmem : x ∈ (aggs.foldl (aggStep n) []).map Prod.snd :=
      hperm.mem_iff.mp hx
    rcases List.mem_map.mp hmem with ⟨e, he, rfl⟩
    exact aggFold_entries_inv n aggs [] (by simp) e he
  · exact updateFold_inv n aggs s

/-- **C7** — The code does *not* behave as claimed: the put-ratio rule is
meant to trigger when the total premium meets the gate and the put/call
ratio — sentinel-infinite when `callPremium == 0` and `putPremium > 0` — is
at least the configured floor.  The source represents that "infinite" ratio
by the sentinel `-1` (its own comment: "Use -1 to indicate infinite") and
then compares it numerically, so `-1 >= putRatioFloor` fails for every
positive floor and an all-put bucket never triggers.  This theorem
evaluates `EvaluateThresholds` at the failing input of the claim: call
premium 0, put premium 100000, total 100000 ≥ gate 50000, putRatioFloor 2,
no other floor configured — the claim says `true`, the code returns
`false`. -/
theorem evaluateThresholds_sentinel_put_ratio_no_trigger :
    EvaluateThresholds
      { periodStart := 0, periodEnd := 300000, callPremium := 0,
        putPremium := 100000, totalPremium := 100000, callPutRatio := 0,
        callVolume := 0, putVolume := 1000 }
      { ticker := "SPY".data, ratioPremiumThreshold := 50000,
        callRatioThreshold := 0, putRatioThreshold := 2,
        callPremiumThreshold := 0, putPremiumThreshold := 0 } = false := by
  decide

/-- **C8 (counterexample)** — The claim says calling the incremental log
reader before the target file exists "is not an error".  It is: the Go
function propagates the `os.Open` failure as a non-nil error (the result
and offset are indeed empty/unchanged, and it is the *callers* that treat
the failure as "no data yet"). -/
theorem readIncremental_missing_file_is_error_cex :
    (ReadLogFileIncremental (fun _ => none) none 0).2.2 ≠ none := by
  decide

/-- **C8 (amended)** — Calling `ReadLogFileIncremental` before the target
file exists returns a non-nil error together with an empty result and the
offset unchanged at its input value (0 on first call); the analysis entry
point `AnalyzeTickerAndDate` checks for the missing file itself and returns
empty results with no error, so its callers receive empty results rather
than a failure. -/
theorem readIncremental_missing_file_behavior :
    ∀ (um : List Char → Option Aggregate) (off : Nat) (n : Int),
      ReadLogFileIncremental um none off =
        ([], off, some "failed to open log file".data) ∧
      AnalyzeTickerAndDate um none n = .ok [] := by
  intro um off n
  exact ⟨rfl, rfl⟩

/-- **C10** — `UpdatePeriodSummaryIncremental` mutates the summary only
from aggregates whose symbol parses as an option and whose computed bucket
start equals the summary's `PeriodStart` (folding the filtered list gives
the same result); every other aggregate leaves the summary unchanged, the
`PeriodStart`/`PeriodEnd` fields are never modified, and the returned error
is always nil. -/
theorem updatePeriodSummaryIncremental_frame :
    ∀ (s : TimePeriodSummary) (aggs : List Aggregate) (n : Int),
      (UpdatePeriodSummaryIncremental s aggs n).2 = none ∧
      (UpdatePeriodSummaryIncremental s aggs n).1.periodStart = s.periodStart ∧
      (UpdatePeriodSummaryIncremental s aggs n).1.periodEnd = s.periodEnd ∧
      UpdatePeriodSummaryIncremental s aggs n =
        UpdatePeriodSummaryIncremental s
          (aggs.filter (fun a => (ParseOptionType a.symbol).isSome &&
            (RoundDownToPeriod a.startTimestamp n = s.periodStart))) n := by
  intro s aggs n
  refine ⟨rfl, ?_, ?_, ?_⟩
  · exact updateFold_periodStart n aggs s
  · exact updateFold_periodEnd n aggs s
  · unfold UpdatePeriodSummaryIncremental
    rw [updateFold_filter n aggs s]

theorem findMarkerDown_some (s : List Char) :
    ∀ (n i : Nat), findMarkerDown s n = some i →
      i ≤ n ∧ markerAt s i = true ∧
        ∀ j, i < j → j ≤ n → markerAt s j = false := by
  intro n
  induction n with
  | zero =>
    intro i h
    simp only [findMarkerDown] at h
    split at h
    · cases h
      refine ⟨le_rfl, by assumption, ?_⟩
      intro j hij hj
      omega
    · cases h
  | succ n ih =>
    intro i h
    simp only [findMarkerDown] at h
    split at h
    · cases h
      refine ⟨le_rfl, by assumption, ?_⟩
      intro j hij hj
      omega
    · rename_i hm
      rcases ih i h with ⟨hle, hat, hright⟩
      refine ⟨Nat.le_succ_of_le hle, hat, ?_⟩
      intro j hij hj
      rcases Nat.lt_succ_iff_lt_or_eq.mp (Nat.lt_succ_of_le hj) with _ | rfl
      · rcases Nat.le_succ_iff.mp hj with hj' | rfl
        · exact hright j hij hj'
        · simpa using hm
      · simpa using hm

theorem findMarkerDown_none (s : List Char) :
    ∀ (n : Nat), findMarkerDown s n = none →
      ∀ j ≤ n, markerAt s j = false := by
  intro n
  induction n with
  | zero =>
    intro h j hj
    simp only [findMarkerDown] at h
    split at h
    · cases h
    · rename_i hm
      interval_cases j
      simpa using hm
  | succ n ih =>
    intro h j hj
    simp only [findMarkerDown] at h
    split at h
    · cases h
    · rename_i hm
      rcases Nat.le_succ_iff.mp hj with hj' | rfl
      · exact ih h j hj'
      · simpa using hm

theorem findMarker_some (s : List Char) (i : Nat)
    (h : findMarker s = some i) :
    i < s.length ∧ markerAt s i = true ∧
      ∀ j, i < j → j < s.length → markerAt s j = false := by
  unfold findMarker at h
  split at h
  · cases h
  · rename_i n hn
    rcases findMarkerDown_some s n i h with ⟨hle, hat, hright⟩
    refine ⟨by omega, hat, ?_⟩
    intro j hij hj
    exact hright j hij (by omega)

/-- **C9 (counterexample)** — The claim allows only two failure modes
(fewer than 7 characters after stripping `"O:"`, or no digit-followed
`C`/`P` marker) and asserts the parse otherwise succeeds.  The symbol
`"O:C12345678"` has 9 characters after stripping and a marker at index 0,
yet `parseContractSymbol` fails, because the marker has fewer than six
characters before it (`expirationStart < 0` in the source). -/
theorem parseContractSymbol_early_marker_cex :
    7 ≤ (trimPrefixO "O:C12345678".data).length ∧
    findMarker (trimPrefixO "O:C12345678".data) = some 0 ∧
    parseContractSymbol "O:C12345678".data = none := by
  decide

/-- **C9 (amended)** — Option-symbol parsing strips the fixed `"O:"`
prefix and fails when fewer than 7 characters remain or when no `'C'`/`'P'`
immediately followed by a digit exists; otherwise the scan takes the
*rightmost* such marker: `ParseOptionType` returns its type (C = call,
P = put), and the component parser `parseContractSymbol` additionally fails
when fewer than six characters precede the marker, and otherwise takes the
six characters before it as the YYMMDD expiration (formatted
`20YY-MM-DD`), everything before that as the underlying, and the
characters after it as a thousandths-scaled strike. -/
theorem symbol_parsing_characterization :
    ∀ (sym : List Char) (i : Nat),
      ((trimPrefixO sym).length < 7 →
        ParseOptionType sym = none ∧ parseContractSymbol sym = none) ∧
      (findMarker (trimPrefixO sym) = none →
        ParseOptionType sym = none ∧ parseContractSymbol sym = none) ∧
      (findMarker (trimPrefixO sym) = some i → 7 ≤ (trimPrefixO sym).length →
        markerAt (trimPrefixO sym) i = true ∧
        (∀ j, i < j → j < (trimPrefixO sym).length →
          markerAt (trimPrefixO sym) j = false) ∧
        ParseOptionType sym =
          some (if (trimPrefixO sym).getD i ' ' = 'C' then .call else .put) ∧
        (i < 6 → parseContractSymbol sym = none) ∧
        (6 ≤ i → parseContractSymbol sym =
          some { underlying := (trimPrefixO sym).take (i - 6),
                 expiration :=
                   formatExpiration (((trimPrefixO sym).drop (i - 6)).take 6),
                 strike := formatStrike ((trimPrefixO sym).drop (i + 1)),
                 type :=
                   if (trimPrefixO sym).getD i ' ' = 'C' then .call else .put,
                 fullSymbol := ['O', ':'] ++ trimPrefixO sym })) := by
  intro sym i
  refine ⟨?_, ?_, ?_⟩
  · intro hlen
    constructor
    · simp only [ParseOptionType]
      rw [if_pos hlen]
    · simp only [parseContractSymbol]
      rw [if_pos hlen]
  · intro hm
    by_cases hlen : (trimPrefixO sym).length < 7
    · constructor
      · simp only [ParseOptionType]; rw [if_pos hlen]
      · simp only [parseContractSymbol]; rw [if_pos hlen]
    · constructor
      · simp only [ParseOptionType]; rw [if_neg hlen, hm]
      · simp only [parseContractSymbol]; rw [if_neg hlen, hm]
  · intro hm h7
    have hlen : ¬(trimPrefixO sym).length < 7 := by omega
    rcases findMarker_some _ i hm with ⟨hilt, hat, hright⟩
    refine ⟨hat, hright, ?_, ?_, ?_⟩
    · simp only [ParseOptionType]
      rw [if_neg hlen, hm]
      exact (apply_ite some _ _ _).symm
    · intro hi6
      simp only [parseContractSymbol]
      rw [if_neg hlen, hm]
      simp [hi6]
    · intro hi6
      have hexp : (((trimPrefixO sym).drop (i - 6)).take 6).length = 6 := by
        simp only [List.length_take, List.length_drop]
        omega
      simp only [parseContractSymbol]
      rw [if_neg hlen, hm]
      simp [Nat.not_lt.mpr hi6, hexp]

/-- Witness for C9's amended theorem at the spec's example:
`O:AAPL230616C00150000` (marker at index 10) parses to underlying `AAPL`,
expiration `2023-06-16`, strike `150.000`, type call. -/
theorem symbol_parsing_characterization_witness :
    parseContractSymbol "O:AAPL230616C00150000".data =
      some { underlying := "AAPL".data, expiration := "2023-06-16".data,
             strike := "150.000".data, type := .call,
             fullSymbol := "O:AAPL230616C00150000".data } ∧
    ParseOptionType "O:AAPL230616C00150000".data = some .call := by
  have h := (symbol_parsing_characterization "O:AAPL230616C00150000".data
    10).2.2 (by decide) (by decide)
  constructor
  · rw [h.2.2.2.2 (by decide)]; decide
  · rw [h.2.2.1]; decide

theorem takeWhile_all_of_length_eq {s : List Char}
    (h : (s.takeWhile fun c => c ≠ '\n').length = s.length) :
    ∀ c ∈ s, c ≠ '\n' := by
  have heq := List.Sublist.eq_of_length (List.takeWhile_sublist _) h
  intro c hc
  have hc' : c ∈ s.takeWhile fun c => c ≠ '\n' := by rw [heq]; exact hc
  simpa using List.mem_takeWhile_imp hc'

theorem completeSplit_no_newline (s : List Char) (h : ∀ c ∈ s, c ≠ '\n') :
    completeSplit s = ([], s) := by
  induction s with
  | nil => rfl
  | cons c cs ih =>
    have hc : c ≠ '\n' := h c (List.mem_cons_self _ _)
    have ih' := ih (fun x hx => h x (List.mem_cons_of_mem _ hx))
    simp [completeSplit, ih', hc]

theorem newline_decomposition (s : List Char)
    (h : (s.takeWhile fun c => c ≠ '\n').length ≠ s.length) :
    s = (s.takeWhile fun c => c ≠ '\n') ++
      '\n' :: s.drop ((s.takeWhile fun c => c ≠ '\n').length + 1) := by
  set t := s.takeWhile (fun c => c ≠ '\n') with ht
  set d := s.dropWhile (fun c => c ≠ '\n') with hd
  have hsplit : t ++ d = s := List.takeWhile_append_dropWhile _ _
  have hdw : d ≠ [] := by
    intro he
    apply h
    rw [he, List.append_nil] at hsplit
    rw [hsplit]
  have hhead : d.head hdw = '\n' := by
    have hh := List.head_dropWhile_not (fun c => c ≠ '\n') s hdw
    rw [decide_eq_false_iff_not] at hh
    exact not_not.mp hh
  have hdrop : s.drop t.length = d := by
    rw [← hsplit, List.drop_left]
  have htail : s.drop (t.length + 1) = d.tail := by
    rw [← List.drop_drop, hdrop, List.drop_one]
  rw [htail, ← hsplit]
  congr 1
  rw [← hhead]
  exact (List.head_cons_tail d hdw).symm

theorem completeSplit_line (line rest : List Char) (h : ∀ c ∈ line, c ≠ '\n') :
    completeSplit (line ++ '\n' :: rest) =
      (line :: (completeSplit rest).1, (completeSplit rest).2) := by
  induction line with
  | nil => simp [completeSplit]
  | cons c cs ih =>
    have hc : c ≠ '\n' := h c (List.mem_cons_self _ _)
    have ih' := ih (fun x hx => h x (List.mem_cons_of_mem _ hx))
    simp [completeSplit, ih', hc]

theorem completeSplit_partial_le (s : List Char) :
    (completeSplit s).2.length ≤ s.length := by
  induction s with
  | nil => simp [completeSplit]
  | cons c cs ih =>
    simp only [completeSplit]
    split
    · simpa using Nat.le_succ_of_le ih
    · cases hcs : (completeSplit cs).1 with
      | cons l ls => simp only [hcs]; simpa using Nat.le_succ_of_le ih
      | nil => simp only [hcs, List.length_cons]; simpa using ih

theorem completeLen_no_newline (s : List Char) (h : ∀ c ∈ s, c ≠ '\n') :
    completeLen s = 0 := by
  simp [completeLen, completeSplit_no_newline s h]

theorem completeLen_line (line rest : List Char) (h : ∀ c ∈ line, c ≠ '\n') :
    completeLen (line ++ '\n' :: rest) =
      line.length + 1 + completeLen rest := by
  have hle := completeSplit_partial_le rest
  simp only [completeLen, completeSplit_line line rest h, List.length_append,
    List.length_cons]
  omega

theorem completeLen_le (s : List Char) : completeLen s ≤ s.length :=
  Nat.sub_le _ _

/-- The read loop consumes exactly the complete lines: it appends their
decodable records, advances the position by the complete-prefix length, and
reports whether a trailing partial line remained. -/
theorem readLoopF_spec (um : List Char → Option Aggregate) :
    ∀ (fuel : Nat) (rest : List Char) (aggs : List Aggregate) (pos : Nat),
      rest.length ≤ fuel →
      readLoopF um fuel rest aggs pos =
        (aggs ++ recordsFrom um rest, pos + completeLen rest,
          (completeSplit rest).2.isEmpty) := by
  intro fuel
  induction fuel with
  | zero =>
    intro rest aggs pos h
    have : rest = [] := List.eq_nil_of_length_eq_zero (Nat.le_zero.mp h)
    subst this
    simp [readLoopF, recordsFrom, completeLines, completeSplit, completeLen]
  | succ f ih =>
    intro rest aggs pos h
    by_cases hline : (rest.takeWhile fun c => c ≠ '\n').length = rest.length
    · have hall : ∀ c ∈ rest, c ≠ '\n' := takeWhile_all_of_length_eq hline
      have hcs := completeSplit_no_newline rest hall
      have hcl := completeLen_no_newline rest hall
      rw [readLoopF, if_pos hline]
      simp [recordsFrom, completeLines, hcs, hcl]
    · have hdecomp := newline_decomposition rest hline
      set line := rest.takeWhile (fun c => c ≠ '\n') with hlinedef
      set tail := rest.drop (line.length + 1) with htaildef
      have hlineAll : ∀ c ∈ line, c ≠ '\n' := by
        intro c hc
        rw [hlinedef] at hc
        simpa using List.mem_takeWhile_imp hc
      have hCS : completeSplit rest =
          (line :: (completeSplit tail).1, (completeSplit tail).2) := by
        rw [hdecomp]
        exact completeSplit_line line tail hlineAll
      have hCL : completeLen rest = line.length + 1 + completeLen tail := by
        rw [hdecomp]
        exact completeLen_line line tail hlineAll
      have hrec : recordsFrom um rest =
          (if line.isEmpty then none else um line).toList ++
            recordsFrom um tail := by
        simp only [recordsFrom, completeLines, hCS, List.filterMap_cons]
        cases hif : (if line.isEmpty then none else um line) with
        | none => simp
        | some a => simp
      have htl : tail.length ≤ f := by
        have h1 : line.length < rest.length :=
          Nat.lt_of_le_of_ne ((List.takeWhile_sublist _).length_le) hline
        rw [htaildef, List.length_drop]
        omega
      rw [readLoopF, if_neg hline, ← hlinedef, ← htaildef]
      by_cases hemp : line.isEmpty
      · rw [if_pos hemp]
        rw [ih tail aggs (pos + 1) htl]
        have hempty : line = [] := List.isEmpty_iff.mp hemp
        rw [hrec, hCS, hCL, hempty]
        simp
        omega
      · rw [if_neg hemp]
        cases hum : um line with
        | none =>
          dsimp only
          rw [ih tail aggs (pos + line.length + 1) htl]
          rw [hrec, hCS, hCL, hum]
          simp [hemp]
          omega
        | some a =>
          dsimp only
          rw [ih tail (aggs ++ [a]) (pos + line.length + 1) htl]
          rw [hrec, hCS, hCL, hum]
          simp [hemp]
          omega

/-- Full characterization of a successful incremental read: the records of
the complete lines after the offset, the offset advanced to just past the
last newline, and no error. -/
theorem readIncremental_char (um : List Char → Option Aggregate)
    (content : List Char) (off : Nat) (hoff : off ≤ content.length) :
    ReadLogFileIncremental um (some content) off =
      (recordsFrom um (content.drop off),
       off + completeLen (content.drop off), none) := by
  unfold ReadLogFileIncremental readLoop
  dsimp only
  rw [readLoopF_spec um _ _ _ _ le_rfl]
  by_cases hflag : (completeSplit (content.drop off)).2.isEmpty
  · have h1 : (completeSplit (content.drop off)).2 = [] :=
      List.isEmpty_iff.mp hflag
    have h2 : completeLen (content.drop off) = (content.drop off).length := by
      simp [completeLen, h1]
    have h3 : content.length ⊔ off = off + completeLen (content.drop off) := by
      rw [h2, List.length_drop]
      omega
    simp [hflag, h3]
  · simp [hflag]

theorem completeSplit_take :
    ∀ (n : Nat) (s : List Char), s.length ≤ n →
      completeSplit (s.take (completeLen s)) = ((completeSplit s).1, []) := by
  intro n
  induction n with
  | zero =>
    intro s h
    have : s = [] := List.eq_nil_of_length_eq_zero (Nat.le_zero.mp h)
    subst this
    rfl
  | succ f ih =>
    intro s h
    by_cases hline : (s.takeWhile fun c => c ≠ '\n').length = s.length
    · have hall := takeWhile_all_of_length_eq hline
      rw [completeLen_no_newline s hall, completeSplit_no_newline s hall]
      rfl
    · have hdecomp := newline_decomposition s hline
      set line := s.takeWhile (fun c => c ≠ '\n') with hlinedef
      set tail := s.drop (line.length + 1) with htaildef
      have hlineAll : ∀ c ∈ line, c ≠ '\n' := by
        intro c hc
        rw [hlinedef] at hc
        simpa using List.mem_takeWhile_imp hc
      have hCS := completeSplit_line line tail hlineAll
      have hCL : completeLen s = line.length + 1 + completeLen tail := by
        rw [hdecomp]
        exact completeLen_line line tail hlineAll
      have htl : tail.length ≤ f := by
        have h1 : line.length < s.length :=
          Nat.lt_of_le_of_ne ((List.takeWhile_sublist _).length_le) hline
        rw [htaildef, List.length_drop]
        omega
      have htake : s.take (completeLen s) =
          line ++ '\n' :: tail.take (completeLen tail) := by
        rw [hCL]
        conv_lhs => rw [hdecomp]
        rw [List.take_append_eq_append_take, List.take_of_length_le (by omega)]
        congr 1
        have harith : line.length + 1 + completeLen tail - line.length =
            completeLen tail + 1 := by omega
        rw [harith, List.take_succ_cons]
      rw [htake, completeSplit_line line _ (hlineAll), ih _ htl]
      conv_rhs => rw [hdecomp]
      rw [hCS]

theorem completeLen_last_newline :
    ∀ (n : Nat) (s : List Char), s.length ≤ n → 0 < completeLen s →
      s.getD (completeLen s - 1) ' ' = '\n' := by
  intro n
  induction n with
  | zero =>
    intro s h hpos
    have : s = [] := List.eq_nil_of_length_eq_zero (Nat.le_zero.mp h)
    subst this
    simp [completeLen, completeSplit] at hpos
  | succ f ih =>
    intro s h hpos
    by_cases hline : (s.takeWhile fun c => c ≠ '\n').length = s.length
    · have hall := takeWhile_all_of_length_eq hline
      rw [completeLen_no_newline s hall] at hpos
      omega
    · have hdecomp := newline_decomposition s hline
      set line := s.takeWhile (fun c => c ≠ '\n') with hlinedef
      set tail := s.drop (line.length + 1) with htaildef
      have hlineAll : ∀ c ∈ line, c ≠ '\n' := by
        intro c hc
        rw [hlinedef] at hc
        simpa using List.mem_takeWhile_imp hc
      have hCL : completeLen s = line.length + 1 + completeLen tail := by
        rw [hdecomp]
        exact completeLen_line line tail hlineAll
      have htl : tail.length ≤ f := by
        have h1 : line.length < s.length :=
          Nat.lt_of_le_of_ne ((List.takeWhile_sublist _).length_le) hline
        rw [htaildef, List.length_drop]
        omega
      by_cases htail0 : completeLen tail = 0
      · have hidx : completeLen s - 1 = line.length := by omega
        rw [hidx, hdecomp]
        have : (line ++ '\n' :: tail)[line.length]? = some '\n' := by
          rw [List.getElem?_append_right le_rfl]
          simp
        simp [List.getD, this]
      · have hidx : completeLen s - 1 = line.length + 1 + (completeLen tail - 1) := by
          omega
        rw [hidx, hdecomp]
        have : (line ++ '\n' :: tail)[line.length + 1 + (completeLen tail - 1)]? =
            tail[completeLen tail - 1]? := by
          rw [List.getElem?_append_right (by omega)]
          have : line.length + 1 + (completeLen tail - 1) - line.length =
              (completeLen tail - 1) + 1 := by omega
          rw [this]
          simp
        have hih := ih tail htl (by omega)
        rw [List.getD_eq_getElem?_getD] at hih ⊢
        rw [this]
        exact hih

theorem recordsFrom_take_completeLen (um : List Char → Option Aggregate)
    (s : List Char) :
    recordsFrom um (s.take (completeLen s)) = recordsFrom um s := by
  simp [recordsFrom, completeLines, completeSplit_take s.length s le_rfl]

/-- **C3** — For every file content and every starting offset at a record
boundary, `ReadLogFileIncremental` returns exactly the records contained in
the complete newline-terminated lines starting at that offset
(`recordsFrom`), and the returned offset is the input offset plus the
length of the complete prefix, i.e. it excludes all bytes after the final
newline — a trailing partial record is never included.  (The scenario
`{"a":1}\n{"b":2` → one record, offset just past the first newline, is the
witness theorem.) -/
theorem readLogFileIncremental_complete_lines
    (um : List Char → Option Aggregate) (content : List Char) (off : Nat)
    (hb : isRecordBoundary content off) :
    ReadLogFileIncremental um (some content) off =
      (recordsFrom um (content.drop off),
       off + completeLen (content.drop off), none) :=
  readIncremental_char um content off hb.1

/-- Witness for C3, the spec's Scenario C: reading `{"a":1}\n{"b":2` (no
trailing newline) from offset 0, with a decoder that accepts `{"a":1}`,
returns exactly that one record and offset 8, just past the first
newline. -/
theorem readLogFileIncremental_complete_lines_witness :
    isRecordBoundary "\x7b\"a\":1\x7d\n\x7b\"b\":2".data 0 ∧
    ReadLogFileIncremental
      (fun l => if l = "\x7b\"a\":1\x7d".data then
        some { symbol := "O:AAPL230616C00150000".data, volume := 1,
               accumulatedVolume := 0, officialOpenPrice := 0, vwap := 0,
               open_ := 0, high := 0, low := 0, close := 0,
               aggregateVWAP := 0, averageSize := 0, startTimestamp := 0,
               endTimestamp := 0 } else none)
      (some "\x7b\"a\":1\x7d\n\x7b\"b\":2".data) 0 =
      ([{ symbol := "O:AAPL230616C00150000".data, volume := 1,
          accumulatedVolume := 0, officialOpenPrice := 0, vwap := 0,
          open_ := 0, high := 0, low := 0, close := 0,
          aggregateVWAP := 0, averageSize := 0, startTimestamp := 0,
          endTimestamp := 0 }], 8, none) := by
  constructor
  · decide
  · rw [readLogFileIncremental_complete_lines _ _ 0 (by decide)]
    decide

/-- **C4** — For every file content and every starting offset at a record
boundary, the offset returned by `ReadLogFileIncremental` is at least the
input offset, never exceeds the file size, and lies on a record boundary
again; the returned records are exactly those of the consumed window
between the old and new offset (so no complete record is ever skipped, and
over a sequence of reads the offsets are non-decreasing); on the
missing-file error path the offset is returned unchanged. -/
theorem readLogFileIncremental_offset_bounds
    (um : List Char → Option Aggregate) (content : List Char) (off : Nat)
    (hb : isRecordBoundary content off) :
    (off ≤ (ReadLogFileIncremental um (some content) off).2.1 ∧
     (ReadLogFileIncremental um (some content) off).2.1 ≤ content.length ∧
     isRecordBoundary content
       (ReadLogFileIncremental um (some content) off).2.1 ∧
     (ReadLogFileIncremental um (some content) off).1 =
       recordsFrom um
         ((content.take (ReadLogFileIncremental um (some content) off).2.1).drop
           off)) ∧
    ∀ (um' : List Char → Option Aggregate) (off' : Nat),
      (ReadLogFileIncremental um' none off').2.1 = off' := by
  obtain ⟨hoff, hbnd⟩ := hb
  have hchar := readIncremental_char um content off hoff
  rw [hchar]
  dsimp only
  have hcle := completeLen_le (content.drop off)
  rw [List.length_drop] at hcle
  refine ⟨⟨by omega, by omega, ⟨by omega, ?_⟩, ?_⟩, fun um' off' => rfl⟩
  · by_cases h0 : completeLen (content.drop off) = 0
    · rw [h0]
      simpa using hbnd
    · right
      have hlast := completeLen_last_newline (content.drop off).length
        (content.drop off) le_rfl (by omega)
      rw [List.getD_eq_getElem?_getD] at hlast ⊢
      rw [show off + completeLen (content.drop off) - 1 =
        off + (completeLen (content.drop off) - 1) by omega]
      rw [← List.getElem?_drop]
      exact hlast
  · rw [List.drop_take]
    rw [show off + completeLen (content.drop off) - off =
      completeLen (content.drop off) by omega]
    exact (recordsFrom_take_completeLen um _).symm

/-- Witness for C4 on the content `ab\ncd` from offset 0: bounds, boundary,
window equation, and the unchanged-offset error path, at a concrete
input. -/
theorem readLogFileIncremental_offset_bounds_witness :
    isRecordBoundary "ab\ncd".data 0 ∧
    ((0 ≤ (ReadLogFileIncremental (fun _ => none) (some "ab\ncd".data) 0).2.1 ∧
      (ReadLogFileIncremental (fun _ => none) (some "ab\ncd".data) 0).2.1 ≤
        "ab\ncd".data.length ∧
      isRecordBoundary "ab\ncd".data
        (ReadLogFileIncremental (fun _ => none) (some "ab\ncd".data) 0).2.1 ∧
      (ReadLogFileIncremental (fun _ => none) (some "ab\ncd".data) 0).1 =
        recordsFrom (fun _ => none)
          (("ab\ncd".data.take
            (ReadLogFileIncremental (fun _ => none)
              (some "ab\ncd".data) 0).2.1).drop 0)) ∧
     ∀ (um' : List Char → Option Aggregate) (off' : Nat),
       (ReadLogFileIncremental um' none off').2.1 = off') :=
  ⟨by decide,
   readLogFileIncremental_offset_bounds (fun _ => none) "ab\ncd".data 0
     (by decide)⟩

theorem processPass_keys_mono (m : Int) (cfg : NotificationConfig)
    (st : NotifState) (p : PassInput) (k : Int) (hk : k ∈ st.notifiedKeys) :
    k ∈ (processSummaryPass m cfg st p).2.notifiedKeys := by
  unfold processSummaryPass
  dsimp only
  split_ifs <;> first | exact hk | exact List.mem_cons_of_mem _ hk

theorem processPass_completed_suppressed (m : Int) (cfg : NotificationConfig)
    (st : NotifState) (p : PassInput) (E : Int)
    (hpe : p.summary.periodEnd = E) (hnow : E ≤ p.nowMs)
    (hk : E ∈ st.notifiedKeys) :
    (processSummaryPass m cfg st p).1 = false := by
  subst hpe
  unfold processSummaryPass
  dsimp only
  have hic : decide (p.summary.periodEnd ≤ p.nowMs) = true := by
    rw [decide_eq_true_eq]
    exact hnow
  simp only [hic, eq_self_iff_true, true_and, if_true]
  split_ifs with h1 h2 h3 <;> try rfl
  all_goals
    · rw [decide_eq_false_iff_not]
      intro hcon
      exact hcon.1 hk

theorem processPass_dispatch_records (m : Int) (cfg : NotificationConfig)
    (st : NotifState) (p : PassInput) (E : Int)
    (hpe : p.summary.periodEnd = E) (hnow : E ≤ p.nowMs)
    (hd : (processSummaryPass m cfg st p).1 = true) :
    E ∈ (processSummaryPass m cfg st p).2.notifiedKeys := by
  subst hpe
  unfold processSummaryPass at hd ⊢
  dsimp only at hd ⊢
  have hic : decide (p.summary.periodEnd ≤ p.nowMs) = true := by
    rw [decide_eq_true_eq]
    exact hnow
  simp only [hic, eq_self_iff_true, true_and, if_true] at hd ⊢
  split_ifs at hd ⊢ with h1 h2 h3
  all_goals simp_all

theorem runPasses_completed_aux (m : Int) (cfg : NotificationConfig) (E : Int) :
    ∀ (passes : List PassInput) (st : NotifState),
      (∀ p ∈ passes, p.summary.periodEnd = E ∧ E ≤ p.nowMs) →
      (E ∈ st.notifiedKeys → (runPasses m cfg st passes).1 = 0) ∧
      (runPasses m cfg st passes).1 ≤ 1 := by
  intro passes
  induction passes with
  | nil => intro st _; exact ⟨fun _ => rfl, by simp [runPasses]⟩
  | cons p ps ih =>
    intro st hE
    obtain ⟨hpe, hnow⟩ := hE p (List.mem_cons_self _ _)
    have hE' : ∀ q ∈ ps, q.summary.periodEnd = E ∧ E ≤ q.nowMs :=
      fun q hq => hE q (List.mem_cons_of_mem _ hq)
    have ihr := ih (processSummaryPass m cfg st p).2 hE'
    constructor
    · intro hk
      have hfalse := processPass_completed_suppressed m cfg st p E hpe hnow hk
      have hk' := processPass_keys_mono m cfg st p E hk
      have hz := ihr.1 hk'
      simp [runPasses, hfalse, hz]
    · by_cases hdisp : (processSummaryPass m cfg st p).1 = true
      · have hrec := processPass_dispatch_records m cfg st p E hpe hnow hdisp
        have hz := ihr.1 hrec
        simp [runPasses, hdisp, hz]
      · have hfalse : (processSummaryPass m cfg st p).1 = false := by
          simpa using hdisp
        simpa [runPasses, hfalse] using ihr.2

/-- **C5** — For a fixed user, instrument and completed bucket (period end
`E`; every pass evaluates it at or after its end time), the trigger path
dispatches at most one push notification across any number of evaluation
passes; once the bucket's end-timestamp dedup key is recorded for the user,
every completed evaluation is suppressed (count 0); and the evaluation —
including the recording of the dedup key on trigger — is independent of
whether delivery to the push gateway succeeds. -/
theorem completed_bucket_at_most_one_dispatch
    (m : Int) (cfg : NotificationConfig) (st : NotifState) (E : Int)
    (passes : List PassInput)
    (hE : ∀ p ∈ passes, p.summary.periodEnd = E ∧ E ≤ p.nowMs) :
    (runPasses m cfg st passes).1 ≤ 1 ∧
    (E ∈ st.notifiedKeys → (runPasses m cfg st passes).1 = 0) ∧
    (∀ (s : TimePeriodSummary) (now : Int) (d d' : Bool) (st' : NotifState),
      processSummaryPass m cfg st' ⟨s, now, d⟩ =
        processSummaryPass m cfg st' ⟨s, now, d'⟩) := by
  have h := runPasses_completed_aux m cfg E passes st hE
  exact ⟨h.2, h.1, fun s now d d' st' => rfl⟩

/-- Witness for C5: two completed evaluations of the same bucket (end
300000, wall clock 300000, one successful and one failed delivery) under a
call-premium floor of 1 dispatch at most once. -/
theorem completed_bucket_at_most_one_dispatch_witness :
    (∀ p ∈ ([
        { summary :=
            { periodStart := 0, periodEnd := 300000, callPremium := 20000,
              putPremium := 0, totalPremium := 20000, callPutRatio := -1,
              callVolume := 100, putVolume := 0 },
          nowMs := 300000, deliveryOk := true },
        { summary :=
            { periodStart := 0, periodEnd := 300000, callPremium := 20000,
              putPremium := 0, totalPremium := 20000, callPutRatio := -1,
              callVolume := 100, putVolume := 0 },
          nowMs := 300000, deliveryOk := false }] : List PassInput),
      p.summary.periodEnd = 300000 ∧ (300000 : Int) ≤ p.nowMs) ∧
    (runPasses 0
      { ticker := "AAPL".data, ratioPremiumThreshold := 0,
        callRatioThreshold := 0, putRatioThreshold := 0,
        callPremiumThreshold := 1, putPremiumThreshold := 0 }
      { notifiedKeys := [], lastProcessedPeriodEnd := none }
      [{ summary :=
           { periodStart := 0, periodEnd := 300000, callPremium := 20000,
             putPremium := 0, totalPremium := 20000, callPutRatio := -1,
             callVolume := 100, putVolume := 0 },
         nowMs := 300000, deliveryOk := true },
       { summary :=
           { periodStart := 0, periodEnd := 300000, callPremium := 20000,
             putPremium := 0, totalPremium := 20000, callPutRatio := -1,
             callVolume := 100, putVolume := 0 },
         nowMs := 300000, deliveryOk := false }]).1 ≤ 1 :=
  ⟨by decide,
   (completed_bucket_at_most_one_dispatch 0 _ _ 300000 _ (by decide)).1⟩

/-- **C6 (counterexample)** — The claim says an in-progress alert records
the same single completed-bucket key, so closure produces no additional
dispatch.  In the code the in-progress key is
`periodEnd + (now.Unix()/30)*30`, which differs from the completed key
`periodEnd`: a bucket (end 300000) alerted in progress at wall clock
200000 is alerted *again* when evaluated as completed at 300000 — two
dispatches in total. -/
theorem inprogress_then_completed_redispatch_cex :
    (runPasses 0
      { ticker := "AAPL".data, ratioPremiumThreshold := 0,
        callRatioThreshold := 0, putRatioThreshold := 0,
        callPremiumThreshold := 1, putPremiumThreshold := 0 }
      { notifiedKeys := [], lastProcessedPeriodEnd := none }
      [{ summary :=
           { periodStart := 0, periodEnd := 300000, callPremium := 20000,
             putPremium := 0, totalPremium := 20000, callPutRatio := -1,
             callVolume := 100, putVolume := 0 },
         nowMs := 200000, deliveryOk := true },
       { summary :=
           { periodStart := 0, periodEnd := 300000, callPremium := 20000,
             putPremium := 0, totalPremium := 20000, callPutRatio := -1,
             callVolume := 100, putVolume := 0 },
         nowMs := 300000, deliveryOk := true }]).1 = 2 := by
  decide

/-- **C6 (amended)** — The dedup key recorded by an in-progress alert
combines the bucket's end timestamp with the current 30-second window
(`periodEnd + (now.Unix()/30)*30`) and therefore differs from the
completed-bucket key (`periodEnd` alone) whenever the clock is at least one
window old; consequently, when the bucket is later evaluated as completed
with thresholds still met, closure produces one additional dispatch (after
which the completed key suppresses further ones, per C5). -/
theorem inprogress_key_differs_completed_redispatch
    (m : Int) (cfg : NotificationConfig) (st : NotifState)
    (p1 p2 : PassInput) (E : Int)
    (h1e : p1.summary.periodEnd = E) (h1now : p1.nowMs < E)
    (h1win : 30000 ≤ p1.nowMs)
    (h2e : p2.summary.periodEnd = E) (h2now : E ≤ p2.nowMs)
    (hmon : ¬E < m)
    (hlp : st.lastProcessedPeriodEnd = none)
    (hk1 : E + ((p1.nowMs.ediv 1000).tdiv 30) * 30 ∉ st.notifiedKeys)
    (hkE : E ∉ st.notifiedKeys)
    (hmet1 : EvaluateThresholds p1.summary cfg = true)
    (hmet2 : EvaluateThresholds p2.summary cfg = true) :
    E + ((p1.nowMs.ediv 1000).tdiv 30) * 30 ≠ E ∧
    (processSummaryPass m cfg st p1).1 = true ∧
    (processSummaryPass m cfg (processSummaryPass m cfg st p1).2 p2).1 = true := by
  have hw : 1 ≤ (p1.nowMs.ediv 1000).tdiv 30 := by
    have hq : 30 ≤ p1.nowMs.ediv 1000 := by
      show (30 : Int) ≤ p1.nowMs / 1000
      rw [Int.le_ediv_iff_mul_le (by norm_num)]
      omega
    rw [Int.tdiv_eq_ediv (by omega) (by norm_num)]
    show (1 : Int) ≤ p1.nowMs.ediv 1000 / 30
    rw [Int.le_ediv_iff_mul_le (by norm_num)]
    omega
  have hne : E + ((p1.nowMs.ediv 1000).tdiv 30) * 30 ≠ E := by
    have : (30 : Int) ≤ ((p1.nowMs.ediv 1000).tdiv 30) * 30 := by
      nlinarith
    omega
  have hic1 : decide (p1.summary.periodEnd ≤ p1.nowMs) = false := by
    rw [decide_eq_false_iff_not, h1e]
    omega
  have hk1' : p1.summary.periodEnd +
      ((p1.nowMs.ediv 1000).tdiv 30) * 30 ∉ st.notifiedKeys := by
    rw [h1e]; exact hk1
  have hstep1 : processSummaryPass m cfg st p1 =
      (true,
       { notifiedKeys := (p1.summary.periodEnd +
           ((p1.nowMs.ediv 1000).tdiv 30) * 30) :: st.notifiedKeys,
         lastProcessedPeriodEnd := st.lastProcessedPeriodEnd }) := by
    unfold processSummaryPass
    simp [hic1, hk1', hmet1]
  have hic2 : decide (p2.summary.periodEnd ≤ p2.nowMs) = true := by
    rw [decide_eq_true_eq, h2e]
    omega
  have hmon2 : ¬p2.summary.periodEnd < m := by rw [h2e]; exact hmon
  have hkE2 : p2.summary.periodEnd ∉
      (p1.summary.periodEnd + ((p1.nowMs.ediv 1000).tdiv 30) * 30) ::
        st.notifiedKeys := by
    rw [h2e]
    intro hmem
    rcases List.mem_cons.mp hmem with h | h
    · rw [h1e] at h
      exact hne h.symm
    · exact hkE h
  refine ⟨hne, ?_, ?_⟩
  · rw [hstep1]
  · rw [hstep1]
    unfold processSummaryPass
    simp [hic2, hmon2, hlp, hkE2, hmet2]

/-- Witness for C6's amended theorem at the concrete counterexample
input: the in-progress key differs from the bucket end, and both the
in-progress pass and the closure pass dispatch. -/
theorem inprogress_key_differs_completed_redispatch_witness :
    ((200000 : Int) < 300000 ∧ (30000 : Int) ≤ 200000 ∧
      (300000 : Int) ≤ 300000) ∧
    ((300000 : Int) + (((200000 : Int).ediv 1000).tdiv 30) * 30 ≠ 300000 ∧
     (processSummaryPass 0
       { ticker := "AAPL".data, ratioPremiumThreshold := 0,
         callRatioThreshold := 0, putRatioThreshold := 0,
         callPremiumThreshold := 1, putPremiumThreshold := 0 }
       { notifiedKeys := [], lastProcessedPeriodEnd := none }
       { summary :=
           { periodStart := 0, periodEnd := 300000, callPremium := 20000,
             putPremium := 0, totalPremium := 20000, callPutRatio := -1,
             callVolume := 100, putVolume := 0 },
         nowMs := 200000, deliveryOk := true }).1 = true ∧
     (processSummaryPass 0
       { ticker := "AAPL".data, ratioPremiumThreshold := 0,
         callRatioThreshold := 0, putRatioThreshold := 0,
         callPremiumThreshold := 1, putPremiumThreshold := 0 }
       (processSummaryPass 0
         { ticker := "AAPL".data, ratioPremiumThreshold := 0,
           callRatioThreshold := 0, putRatioThreshold := 0,
           callPremiumThreshold := 1, putPremiumThreshold := 0 }
         { notifiedKeys := [], lastProcessedPeriodEnd := none }
         { summary :=
             { periodStart := 0, periodEnd := 300000, callPremium := 20000,
               putPremium := 0, totalPremium := 20000, callPutRatio := -1,
               callVolume := 100, putVolume := 0 },
           nowMs := 200000, deliveryOk := true }).2
       { summary :=
           { periodStart := 0, periodEnd := 300000, callPremium := 20000,
             putPremium := 0, totalPremium := 20000, callPutRatio := -1,
             callVolume := 100, putVolume := 0 },
         nowMs := 300000, deliveryOk := false }).1 = true) :=
  ⟨by decide,
   inprogress_key_differs_completed_redispatch 0
    { ticker := "AAPL".data, ratioPremiumThreshold := 0,
      callRatioThreshold := 0, putRatioThreshold := 0,
      callPremiumThreshold := 1, putPremiumThreshold := 0 }
    { notifiedKeys := [], lastProcessedPeriodEnd := none }
    { summary :=
        { periodStart := 0, periodEnd := 300000, callPremium := 20000,
          putPremium := 0, totalPremium := 20000, callPutRatio := -1,
          callVolume := 100, putVolume := 0 },
      nowMs := 200000, deliveryOk := true }
    { summary :=
        { periodStart := 0, periodEnd := 300000, callPremium := 20000,
          putPremium := 0, totalPremium := 20000, callPutRatio := -1,
          callVolume := 100, putVolume := 0 },
      nowMs := 300000, deliveryOk := false }
    300000 (by decide) (by decide) (by decide) (by decide) (by decide)
    (by decide) (by decide) (by decide) (by decide) (by decide) (by decide)⟩

theorem alistFind_upsert_self (k : Int) (v : TimePeriodSummary)
    (m : List (Int × TimePeriodSummary)) :
    alistFind k (alistUpsert k v m) = some v := by
  induction m with
  | nil => simp [alistUpsert, alistFind]
  | cons hd tl ih =>
    obtain ⟨k', v'⟩ := hd
    by_cases hk : k = k'
    · simp [alistUpsert, alistFind, hk]
    · simp [alistUpsert, alistFind, hk, ih]

theorem alistFind_upsert_ne (k k' : Int) (v : TimePeriodSummary)
    (m : List (Int × TimePeriodSummary)) (h : k' ≠ k) :
    alistFind k' (alistUpsert k v m) = alistFind k' m := by
  induction m with
  | nil => simp [alistUpsert, alistFind, h]
  | cons hd tl ih =>
    obtain ⟨k'', v''⟩ := hd
    by_cases hk : k = k''
    · subst hk
      simp [alistUpsert, alistFind, h]
    · by_cases hk' : k' = k''
      · simp [alistUpsert, alistFind, hk, hk']
      · simp [alistUpsert, alistFind, hk, hk', ih]

theorem alistUpsert_keys_nodup (k : Int) (v : TimePeriodSummary)
    (m : List (Int × TimePeriodSummary)) (h : (m.map Prod.fst).Nodup) :
    ((alistUpsert k v m).map Prod.fst).Nodup := by
  induction m with
  | nil => simp [alistUpsert]
  | cons hd tl ih =>
    obtain ⟨k', v'⟩ := hd
    simp only [List.map_cons, List.nodup_cons] at h
    by_cases hk : k = k'
    · subst hk
      have hu : alistUpsert k v ((k, v') :: tl) = (k, v) :: tl := by
        simp [alistUpsert]
      rw [hu]
      simpa using h
    · simp only [alistUpsert, if_neg hk, List.map_cons, List.nodup_cons]
      constructor
      · intro hmem
        rcases List.mem_map.mp hmem with ⟨e, he, hfst⟩
        rcases alistUpsert_mem k v tl e he with rfl | he'
        · exact hk (by simpa using hfst)
        · exact h.1 (List.mem_map.mpr ⟨e, he', hfst⟩)
      · exact ih h.2

theorem alistFind_isSome_iff (k : Int) (m : List (Int × TimePeriodSummary)) :
    (alistFind k m).isSome ↔ k ∈ m.map Prod.fst := by
  induction m with
  | nil => simp [alistFind]
  | cons hd tl ih =>
    obtain ⟨k', v'⟩ := hd
    by_cases hk : k = k'
    · simp [alistFind, hk]
    · simp [alistFind, hk, ih]

theorem alistFind_eq_some_of_mem (k : Int) (v : TimePeriodSummary)
    (m : List (Int × TimePeriodSummary)) (hnd : (m.map Prod.fst).Nodup)
    (hmem : (k, v) ∈ m) : alistFind k m = some v := by
  induction m with
  | nil => cases hmem
  | cons hd tl ih =>
    obtain ⟨k', v'⟩ := hd
    simp only [List.map_cons, List.nodup_cons] at hnd
    rcases List.mem_cons.mp hmem with he | he
    · rw [Prod.mk.injEq] at he
      obtain ⟨rfl, rfl⟩ := he
      simp [alistFind]
    · by_cases hk : k = k'
      · subst hk
        exfalso
        exact hnd.1 (List.mem_map.mpr ⟨(k, v), he, rfl⟩)
      · simp only [alistFind, if_neg hk]
        exact ih hnd.2 he

theorem mem_of_alistFind_eq_some (k : Int) (v : TimePeriodSummary)
    (m : List (Int × TimePeriodSummary)) (h : alistFind k m = some v) :
    (k, v) ∈ m := by
  induction m with
  | nil => cases h
  | cons hd tl ih =>
    obtain ⟨k', v'⟩ := hd
    by_cases hk : k = k'
    · subst hk
      have hf : alistFind k ((k, v') :: tl) = some v' := by simp [alistFind]
      rw [hf, Option.some.injEq] at h
      subst h
      exact List.mem_cons_self _ _
    · simp only [alistFind, if_neg hk] at h
      exact List.mem_cons_of_mem _ (ih h)

theorem applyTick_call_eq_mkFromRaw (s : TimePeriodSummary) (premium : ℚ)
    (volume : Int) :
    applyTick s .call premium volume =
      mkFromRaw s.periodStart s.periodEnd (rawOf s + (premium, 0, volume, 0)) := by
  simp [applyTick, mkFromRaw, rawOf, Prod.ext_iff]

theorem applyTick_put_eq_mkFromRaw (s : TimePeriodSummary) (premium : ℚ)
    (volume : Int) :
    applyTick s .put premium volume =
      mkFromRaw s.periodStart s.periodEnd (rawOf s + (0, premium, 0, volume)) := by
  simp [applyTick, mkFromRaw, rawOf, Prod.ext_iff]

theorem rawOf_mkFromRaw (ps pe : Int) (r : ℚ × ℚ × Int × Int) :
    rawOf (mkFromRaw ps pe r) = r := by
  simp [rawOf, mkFromRaw]

theorem aggStep_inv (n : Int) (m : List (Int × TimePeriodSummary))
    (a : Aggregate) (h : aggMapInv n m) : aggMapInv n (aggStep n m a) := by
  unfold aggStep
  split
  · exact h
  · rename_i ot hot
    dsimp only
    constructor
    · exact alistUpsert_keys_nodup _ _ _ h.1
    · intro e he
      rcases alistUpsert_mem _ _ _ e he with rfl | he'
      · dsimp only
        set k := RoundDownToPeriod a.startTimestamp n with hkdef
        set s0 := (alistFind k m).getD (freshSummary k (periodEndOf k n)) with hs0
        have hps : s0.periodStart = k ∧ s0.periodEnd = periodEndOf k n := by
          rw [hs0]
          cases hf : alistFind k m with
          | none => simp [freshSummary]
          | some v =>
            have hv := h.2 (k, v) (mem_of_alistFind_eq_some k v m hf)
            simp only at hv
            constructor
            · simp only [Option.getD_some]
              rw [hv]
              rfl
            · simp only [Option.getD_some]
              rw [hv]
              rfl
        cases ot with
        | call =>
          rw [applyTick_call_eq_mkFromRaw, hps.1, hps.2, rawOf_mkFromRaw]
        | put =>
          rw [applyTick_put_eq_mkFromRaw, hps.1, hps.2, rawOf_mkFromRaw]
      · exact h.2 e he'

theorem sumRaw_nil (n k : Int) : sumRaw n k [] = 0 := rfl

theorem sumRaw_cons_hit (n k : Int) (a : Aggregate) (l : List Aggregate)
    (h : hits n k a = true) :
    sumRaw n k (a :: l) = tickDelta a + sumRaw n k l := by
  simp [sumRaw, List.filter_cons, h]

theorem sumRaw_cons_miss (n k : Int) (a : Aggregate) (l : List Aggregate)
    (h : hits n k a = false) :
    sumRaw n k (a :: l) = sumRaw n k l := by
  simp [sumRaw, List.filter_cons, h]

theorem rawAt_upsert_self (k : Int) (v : TimePeriodSummary)
    (m : List (Int × TimePeriodSummary)) :
    rawAt k (alistUpsert k v m) = rawOf v := by
  simp [rawAt, alistFind_upsert_self]

theorem aggFold_find_char (n : Int) :
    ∀ (l : List Aggregate) (m : List (Int × TimePeriodSummary)) (k : Int),
      aggMapInv n m →
      alistFind k (l.foldl (aggStep n) m) =
        if (alistFind k m).isSome || l.any (hits n k) then
          some (mkFromRaw k (periodEndOf k n) (rawAt k m + sumRaw n k l))
        else none := by
  intro l
  induction l with
  | nil =>
    intro m k hinv
    simp only [List.foldl_nil, List.any_nil, Bool.or_false]
    cases hf : alistFind k m with
    | none => simp [hf]
    | some v =>
      have hv := hinv.2 (k, v) (mem_of_alistFind_eq_some k v m hf)
      simp only at hv
      have hraw : rawAt k m = rawOf v := by simp [rawAt, hf]
      simp [hf, sumRaw_nil, hraw, ← hv]
  | cons a l ih =>
    intro m k hinv
    rw [List.foldl_cons]
    have hinv' : aggMapInv n (aggStep n m a) := aggStep_inv n m a hinv
    rw [ih (aggStep n m a) k hinv']
    by_cases hpa : (ParseOptionType a.symbol).isSome
    · obtain ⟨ot, hot⟩ := Option.isSome_iff_exists.mp hpa
      have hstep : aggStep n m a =
          alistUpsert (RoundDownToPeriod a.startTimestamp n)
            (applyTick
              ((alistFind (RoundDownToPeriod a.startTimestamp n) m).getD
                (freshSummary (RoundDownToPeriod a.startTimestamp n)
                  (periodEndOf (RoundDownToPeriod a.startTimestamp n) n)))
              ot (CalculatePremium a.volume a.vwap) a.volume) m := by
        unfold aggStep
        rw [hot]
      by_cases hk : k = RoundDownToPeriod a.startTimestamp n
      · rw [← hk] at hstep
        set s0 := (alistFind k m).getD (freshSummary k (periodEndOf k n)) with hs0
        have hps : s0.periodStart = k ∧ s0.periodEnd = periodEndOf k n ∧
            rawOf s0 = rawAt k m := by
          rw [hs0]
          cases hf : alistFind k m with
          | none => simp [freshSummary, rawOf, rawAt, hf]
          | some v =>
            have hv := hinv.2 (k, v) (mem_of_alistFind_eq_some k v m hf)
            simp only at hv
            refine ⟨?_, ?_, ?_⟩
            · simp only [Option.getD_some]
              rw [hv]
              rfl
            · simp only [Option.getD_some]
              rw [hv]
              rfl
            · simp [rawAt, hf]
        have happ : applyTick s0 ot (CalculatePremium a.volume a.vwap) a.volume =
            mkFromRaw k (periodEndOf k n) (rawAt k m + tickDelta a) := by
          cases ot with
          | call =>
            rw [applyTick_call_eq_mkFromRaw, hps.1, hps.2.1, hps.2.2]
            congr 1
            simp [tickDelta, hot]
          | put =>
            rw [applyTick_put_eq_mkFromRaw, hps.1, hps.2.1, hps.2.2]
            congr 1
            simp [tickDelta, hot]
        have hfind' : alistFind k (aggStep n m a) =
            some (mkFromRaw k (periodEndOf k n) (rawAt k m + tickDelta a)) := by
          rw [hstep, happ, alistFind_upsert_self]
        have hrawAt' : rawAt k (aggStep n m a) = rawAt k m + tickDelta a := by
          rw [hstep, happ, rawAt_upsert_self, rawOf_mkFromRaw]
        have hhits : hits n k a = true := by
          simp [hits, hpa, hk]
        rw [hfind', hrawAt']
        have hany : (a :: l).any (hits n k) = true := by simp [hhits]
        simp only [Option.isSome_some, Bool.true_or, if_pos rfl, hany,
          Bool.or_true, sumRaw_cons_hit n k a l hhits]
        rw [add_assoc]
      · have hfind' : alistFind k (aggStep n m a) = alistFind k m := by
          rw [hstep]
          exact alistFind_upsert_ne _ k _ m hk
        have hrawAt' : rawAt k (aggStep n m a) = rawAt k m := by
          simp [rawAt, hfind']
        have hhits : hits n k a = false := by
          simp only [hits, Bool.and_eq_false_iff]
          right
          simpa using fun h => hk h.symm
        rw [hfind', hrawAt', sumRaw_cons_miss n k a l hhits]
        simp [hhits]
    · have hstep : aggStep n m a = m := by
        unfold aggStep
        rw [Option.not_isSome_iff_eq_none.mp hpa]
      have hhits : hits n k a = false := by
        simp [hits, Option.not_isSome_iff_eq_none.mp hpa]
      rw [hstep, sumRaw_cons_miss n k a l hhits]
      simp [hhits]

theorem aggFold_inv (n : Int) (l : List Aggregate) :
    ∀ m, aggMapInv n m → aggMapInv n (l.foldl (aggStep n) m) := by
  induction l with
  | nil => intro m h; exact h
  | cons a as ih =>
    intro m h
    rw [List.foldl_cons]
    exact ih _ (aggStep_inv n m a h)

theorem aggMapInv_nil (n : Int) : aggMapInv n [] :=
  ⟨List.nodup_nil, by intro e he; cases he⟩

theorem perm_any_eq (l₁ l₂ : List Aggregate) (h : l₁ ~ l₂)
    (p : Aggregate → Bool) : l₁.any p = l₂.any p := by
  have hiff : (l₁.any p = true) ↔ (l₂.any p = true) := by
    simp only [List.any_eq_true]
    exact ⟨fun ⟨a, ha, hpa⟩ => ⟨a, h.mem_iff.mp ha, hpa⟩,
           fun ⟨a, ha, hpa⟩ => ⟨a, h.mem_iff.mpr ha, hpa⟩⟩
  cases h1 : l₁.any p <;> cases h2 : l₂.any p <;> simp_all

theorem perm_sumRaw_eq (n k : Int) (l₁ l₂ : List Aggregate) (h : l₁ ~ l₂) :
    sumRaw n k l₁ = sumRaw n k l₂ :=
  ((h.filter (hits n k)).map tickDelta).sum_eq

/-- Entry-level characterization of the period map built from scratch. -/
theorem aggFold_mem_iff (n : Int) (l : List Aggregate) (k : Int)
    (v : TimePeriodSummary) :
    ((k, v) ∈ l.foldl (aggStep n) [] ↔
      l.any (hits n k) = true ∧
        v = mkFromRaw k (periodEndOf k n) (sumRaw n k l)) := by
  have hinv := aggFold_inv n l [] (aggMapInv_nil n)
  have hchar := aggFold_find_char n l [] k (aggMapInv_nil n)
  rw [show alistFind k ([] : List (Int × TimePeriodSummary)) = none from rfl]
    at hchar
  have hz : rawAt k ([] : List (Int × TimePeriodSummary)) + sumRaw n k l =
      sumRaw n k l := by
    simp [rawAt, alistFind]
  constructor
  · intro hmem
    have hf := alistFind_eq_some_of_mem k v _ hinv.1 hmem
    rw [hchar] at hf
    by_cases hany : l.any (hits n k) = true
    · refine ⟨hany, ?_⟩
      simp only [hany, hz, Option.isSome_none, Bool.false_or, if_true,
        Option.some.injEq] at hf
      exact hf.symm
    · simp [hany] at hf
  · rintro ⟨hany, rfl⟩
    apply mem_of_alistFind_eq_some
    rw [hchar]
    simp [hany, hz]

theorem aggFold_perm (n : Int) (l₁ l₂ : List Aggregate) (hp : l₁ ~ l₂) :
    (l₁.foldl (aggStep n) []) ~ (l₂.foldl (aggStep n) []) := by
  have h₁ := aggFold_inv n l₁ [] (aggMapInv_nil n)
  have h₂ := aggFold_inv n l₂ [] (aggMapInv_nil n)
  apply List.perm_of_nodup_nodup_toFinset_eq
  · exact List.Nodup.of_map Prod.fst h₁.1
  · exact List.Nodup.of_map Prod.fst h₂.1
  · apply Finset.ext
    intro e
    obtain ⟨k, v⟩ := e
    rw [List.mem_toFinset, List.mem_toFinset, aggFold_mem_iff,
      aggFold_mem_iff, perm_any_eq l₁ l₂ hp (hits n k),
      perm_sumRaw_eq n k l₁ l₂ hp]

theorem sortInner_min (x : TimePeriodSummary) (l : List TimePeriodSummary) :
    (sortInner x l).1.periodStart ≤ x.periodStart ∧
      ∀ y ∈ (sortInner x l).2,
        (sortInner x l).1.periodStart ≤ y.periodStart := by
  induction l generalizing x with
  | nil => simp [sortInner]
  | cons y ys ih =>
    simp only [sortInner]
    split
    · rename_i hlt
      refine ⟨le_of_lt (lt_of_le_of_lt (ih y).1 hlt), ?_⟩
      intro z hz
      rcases List.mem_cons.mp hz with rfl | hz'
      · exact le_of_lt (lt_of_le_of_lt (ih y).1 hlt)
      · exact (ih y).2 z hz'
    · rename_i hnlt
      refine ⟨(ih x).1, ?_⟩
      intro z hz
      rcases List.mem_cons.mp hz with rfl | hz'
      · exact le_trans (ih x).1 (le_of_not_lt hnlt)
      · exact (ih x).2 z hz'

theorem sortFuel_sorted :
    ∀ (fuel : Nat) (l : List TimePeriodSummary), l.length ≤ fuel →
      (sortFuel fuel l).Sorted
        (fun a b => a.periodStart ≤ b.periodStart) := by
  intro fuel
  induction fuel with
  | zero =>
    intro l h
    have : l = [] := List.eq_nil_of_length_eq_zero (Nat.le_zero.mp h)
    subst this
    simp [sortFuel]
  | succ f ih =>
    intro l h
    match l with
    | [] => simp [sortFuel]
    | x :: xs =>
      have hlen : (sortInner x xs).2.length ≤ f := by
        rw [sortInner_length]
        simpa using Nat.succ_le_succ_iff.mp h
      rw [show sortFuel (f + 1) (x :: xs) =
        (sortInner x xs).1 :: sortFuel f (sortInner x xs).2 from rfl]
      rw [List.sorted_cons]
      refine ⟨?_, ih _ hlen⟩
      intro b hb
      have hb' : b ∈ (sortInner x xs).2 :=
        (sortFuel_perm f _ hlen).mem_iff.mp hb
      exact (sortInner_min x xs).2 b hb'

theorem sortByPeriodStart_sorted (l : List TimePeriodSummary) :
    (sortByPeriodStart l).Sorted (fun a b => a.periodStart ≤ b.periodStart) :=
  sortFuel_sorted l.length l le_rfl

/-- Strictify: a list sorted by non-decreasing period start whose period
starts are distinct is sorted by strictly increasing period start. -/
theorem sorted_strict_of_nodup_ps (out : List TimePeriodSummary)
    (hs : out.Sorted (fun a b => a.periodStart ≤ b.periodStart))
    (hn : (out.map (fun s => s.periodStart)).Nodup) :
    out.Sorted (fun a b => a.periodStart < b.periodStart) := by
  have hne : out.Pairwise (fun a b => a.periodStart ≠ b.periodStart) :=
    List.pairwise_map.mp hn
  have hand := List.Pairwise.and hs hne
  exact hand.imp (fun h => lt_of_le_of_ne h.1 h.2)

/-- **C2** — The Period Aggregator is order-independent (and hence
idempotent over a fixed tick set): permuting the input tick list leaves the
output of `AggregatePremiums` exactly unchanged.  The accumulation into the
period map is commutative (per-bucket sums of tick contributions), the
bucket key set is permutation-invariant, and the final exchange sort makes
the output the unique ascending-by-`PeriodStart` enumeration of the
buckets. -/
theorem aggregatePremiums_perm_invariant (l₁ l₂ : List Aggregate) (n : Int)
    (hp : l₁ ~ l₂) :
    AggregatePremiums l₁ n = AggregatePremiums l₂ n := by
  unfold AggregatePremiums
  have hfoldperm := aggFold_perm n l₁ l₂ hp
  have hperm : ((l₁.foldl (aggStep n) []).map Prod.snd) ~
      ((l₂.foldl (aggStep n) []).map Prod.snd) := hfoldperm.map Prod.snd
  have hinv₁ := aggFold_inv n l₁ [] (aggMapInv_nil n)
  have hpsmap : ((l₁.foldl (aggStep n) []).map Prod.snd).map
      (fun s => s.periodStart) = (l₁.foldl (aggStep n) []).map Prod.fst := by
    rw [List.map_map]
    apply List.map_congr_left
    intro e he
    have hv := hinv₁.2 e he
    show e.2.periodStart = e.1
    rw [hv]
    rfl
  have hnodup₁ : (((l₁.foldl (aggStep n) []).map Prod.snd).map
      (fun s => s.periodStart)).Nodup := by
    rw [hpsmap]
    exact hinv₁.1
  have houtperm : sortByPeriodStart ((l₁.foldl (aggStep n) []).map Prod.snd) ~
      sortByPeriodStart ((l₂.foldl (aggStep n) []).map Prod.snd) :=
    (sortByPeriodStart_perm _).trans
      (hperm.trans (sortByPeriodStart_perm _).symm)
  have hn₁ : ((sortByPeriodStart ((l₁.foldl (aggStep n) []).map
      Prod.snd)).map (fun s => s.periodStart)).Nodup :=
    (((sortByPeriodStart_perm _).map (fun s => s.periodStart)).nodup_iff).mpr
      hnodup₁
  have hn₂ : ((sortByPeriodStart ((l₂.foldl (aggStep n) []).map
      Prod.snd)).map (fun s => s.periodStart)).Nodup :=
    ((houtperm.map (fun s => s.periodStart)).nodup_iff).mp hn₁
  have hstrict₁ := sorted_strict_of_nodup_ps _ (sortByPeriodStart_sorted _) hn₁
  have hstrict₂ := sorted_strict_of_nodup_ps _ (sortByPeriodStart_sorted _) hn₂
  haveI : IsAntisymm TimePeriodSummary
      (fun a b => a.periodStart < b.periodStart) :=
    ⟨fun a b h1 h2 => (lt_asymm h1 h2).elim⟩
  exact List.eq_of_perm_of_sorted houtperm hstrict₁ hstrict₂

/-- Witness for C2: swapping two concrete ticks (one AAPL call, one AAPL
put) leaves the aggregation result unchanged. -/
theorem aggregatePremiums_perm_invariant_witness :
    ([{ symbol := "O:AAPL230616C00150000".data, volume := 100,
        accumulatedVolume := 0, officialOpenPrice := 0, vwap := 2, open_ := 0,
        high := 0, low := 0, close := 0, aggregateVWAP := 0, averageSize := 0,
        startTimestamp := 0, endTimestamp := 0 },
      { symbol := "O:AAPL230616P00150000".data, volume := 50,
        accumulatedVolume := 0, officialOpenPrice := 0, vwap := 4, open_ := 0,
        high := 0, low := 0, close := 0, aggregateVWAP := 0, averageSize := 0,
        startTimestamp := 0, endTimestamp := 0 }] : List Aggregate) ~
      [{ symbol := "O:AAPL230616P00150000".data, volume := 50,
         accumulatedVolume := 0, officialOpenPrice := 0, vwap := 4, open_ := 0,
         high := 0, low := 0, close := 0, aggregateVWAP := 0, averageSize := 0,
         startTimestamp := 0, endTimestamp := 0 },
       { symbol := "O:AAPL230616C00150000".data, volume := 100,
         accumulatedVolume := 0, officialOpenPrice := 0, vwap := 2, open_ := 0,
         high := 0, low := 0, close := 0, aggregateVWAP := 0, averageSize := 0,
         startTimestamp := 0, endTimestamp := 0 }] ∧
    AggregatePremiums
      [{ symbol := "O:AAPL230616C00150000".data, volume := 100,
         accumulatedVolume := 0, officialOpenPrice := 0, vwap := 2, open_ := 0,
         high := 0, low := 0, close := 0, aggregateVWAP := 0, averageSize := 0,
         startTimestamp := 0, endTimestamp := 0 },
       { symbol := "O:AAPL230616P00150000".data, volume := 50,
         accumulatedVolume := 0, officialOpenPrice := 0, vwap := 4, open_ := 0,
         high := 0, low := 0, close := 0, aggregateVWAP := 0, averageSize := 0,
         startTimestamp := 0, endTimestamp := 0 }] 5 =
    AggregatePremiums
      [{ symbol := "O:AAPL230616P00150000".data, volume := 50,
         accumulatedVolume := 0, officialOpenPrice := 0, vwap := 4, open_ := 0,
         high := 0, low := 0, close := 0, aggregateVWAP := 0, averageSize := 0,
         startTimestamp := 0, endTimestamp := 0 },
       { symbol := "O:AAPL230616C00150000".data, volume := 100,
         accumulatedVolume := 0, officialOpenPrice := 0, vwap := 2, open_ := 0,
         high := 0, low := 0, close := 0, aggregateVWAP := 0, averageSize := 0,
         startTimestamp := 0, endTimestamp := 0 }] 5 :=
  ⟨by decide, aggregatePremiums_perm_invariant _ _ 5 (by decide)⟩

end JaxOv
